import Mathlib

/-!
# Verification of the Code Structure & Relevance Engine

A shallow embedding, in Lean 4, of the core of the `chatgit` repository:
the graph-building analyzer (`pagerank_analyzer.py`), the structural
extractor (`rag_101/retriever.py`) and the fragment locator
(`snippet_extractor.py`), together with proofs and refutations of the
spec's testable properties.

Modelling conventions:
 - Python strings are modelled by `String` (graph node names) or by
   `List Char` (text that the locator processes character by character).
 - Machine floats (similarity scores, PageRank scores, edge weights) are
   modelled by `ℚ`; the spec's numeric literals (0.3, 0.80, 0.85) are exact
   decimal fractions, so nothing is lost.
 - CPython's `ast.parse` is external to the repository; a parsed Python
   module is modelled by a tree of `PyNode`s, and `ast.walk`'s breadth-first
   traversal is embedded as `walkAux`.
 - The Python `re` engine is likewise external: for the analyzer a generic
   (non-Python) source file is modelled by the list of matches the engine
   yields for the file's patterns (`re.finditer` is deterministic in the
   file content, so pass 1 and pass 2 see the same matches).  Where a claim
   depends on a concrete pattern (the C/C++ function-definition regex of
   `_parse_cpp`), that single pattern is embedded directly as a matcher.
 - `networkx.DiGraph` keeps nodes in insertion order and at most one edge
   per ordered pair; `add_edge` on an existing pair merges attributes.
   Graphs are embedded as insertion-ordered lists with those semantics.
 - Exceptions raised by library algorithms (`nx.pagerank`,
   `nx.betweenness_centrality`) are modelled by oracles returning
   `Except String _`; an exception that would escape a query's boundary is
   an `Except.error` result of the embedded query.
-/

/-! ## Python AST model (`ast` nodes relevant to the analyzer) -/

/-- A parsed Python AST node, as the analyzer dispatches on it:
function definitions (`ast.FunctionDef`), asynchronous function definitions
(`ast.AsyncFunctionDef`, a distinct class, not a subclass of
`ast.FunctionDef`), class definitions, the two import statement forms,
calls whose callee is a bare name (`ast.Call` with `ast.Name` func), and
any other node (modelled only through its children). -/
inductive PyNode where
  | functionDef (name : String) (lineno : Nat) (body : List PyNode)
  | asyncFunctionDef (name : String) (lineno : Nat) (body : List PyNode)
  | classDef (name : String) (lineno : Nat) (body : List PyNode)
  | importStmt (names : List String)
  | importFrom (module : Option String)
  | callName (funcName : String) (args : List PyNode)
  | other (children : List PyNode)

/-- Child nodes, in syntactic order (the order `ast.iter_child_nodes` uses). -/
def PyNode.children : PyNode → List PyNode
  | .functionDef _ _ b => b
  | .asyncFunctionDef _ _ b => b
  | .classDef _ _ b => b
  | .importStmt _ => []
  | .importFrom _ => []
  | .callName _ a => a
  | .other c => c

mutual

/-- Size of a node (for termination of the breadth-first walk). -/
def PyNode.nsize : PyNode → Nat
  | .functionDef _ _ b => 1 + nsizeList b
  | .asyncFunctionDef _ _ b => 1 + nsizeList b
  | .classDef _ _ b => 1 + nsizeList b
  | .importStmt _ => 1
  | .importFrom _ => 1
  | .callName _ a => 1 + nsizeList a
  | .other c => 1 + nsizeList c

/-- Total size of a list of nodes. -/
def nsizeList : List PyNode → Nat
  | [] => 0
  | c :: cs => PyNode.nsize c + nsizeList cs

end

theorem nsizeList_append (a b : List PyNode) :
    nsizeList (a ++ b) = nsizeList a + nsizeList b := by
  induction a with
  | nil => simp [nsizeList]
  | cons c cs ih => simp [nsizeList, ih]; ring

theorem PyNode.nsize_eq (n : PyNode) : n.nsize = 1 + nsizeList n.children := by
  cases n <;> simp [PyNode.nsize, PyNode.children, nsizeList]

theorem walk_measure (n : PyNode) (rest : List PyNode) :
    nsizeList (rest ++ n.children) < nsizeList (n :: rest) := by
  have h := PyNode.nsize_eq n
  simp [nsizeList, nsizeList_append, h]
  omega

/-- Fuelled breadth-first traversal: `ast.walk` pops the queue front and
pushes the node's children at the back.  The fuel only bounds the
recursion depth; `walkAuxF_fuel` shows any fuel `≥ nsizeList q` gives the
same (complete) traversal, so `walkAux` below is fuel-independent. -/
def walkAuxF : Nat → List PyNode → List PyNode
  | _, [] => []
  | 0, _ :: _ => []
  | fuel + 1, n :: rest => n :: walkAuxF fuel (rest ++ n.children)

theorem walkAuxF_fuel (fuel : Nat) :
    ∀ fuel' q, nsizeList q ≤ fuel → fuel ≤ fuel' →
      walkAuxF fuel' q = walkAuxF fuel q := by
  induction fuel with
  | zero =>
      intro fuel' q hq _
      cases q with
      | nil => cases fuel' <;> rfl
      | cons n rest =>
          exfalso
          have h := PyNode.nsize_eq n
          have : PyNode.nsize n + nsizeList rest ≤ 0 := hq
          omega
  | succ f ih =>
      intro fuel' q hq hle
      cases q with
      | nil => cases fuel' <;> rfl
      | cons n rest =>
          cases fuel' with
          | zero => omega
          | succ f' =>
              simp only [walkAuxF]
              have hlt : nsizeList (rest ++ n.children) < nsizeList (n :: rest) :=
                walk_measure n rest
              have h1 : nsizeList (rest ++ n.children) ≤ f := by omega
              rw [ih f' _ h1 (by omega), ih f _ h1 (le_refl f)]

/-- Breadth-first traversal of a queue of nodes (`ast.walk`'s order). -/
def walkAux (q : List PyNode) : List PyNode := walkAuxF (nsizeList q) q

/-- `ast.walk` over a parsed module whose body is `body`: the `Module` node
itself is yielded first but matches none of the analyzer's cases, so the
traversal of interest is the breadth-first walk seeded with the body. -/
def pyWalk (body : List PyNode) : List PyNode := walkAux body

theorem walkAux_nil : walkAux [] = [] := rfl

theorem walkAux_cons (n : PyNode) (rest : List PyNode) :
    walkAux (n :: rest) = n :: walkAux (rest ++ n.children) := by
  have hk : nsizeList (n :: rest) = nsizeList (rest ++ n.children) + 1 := by
    have h := PyNode.nsize_eq n
    simp only [nsizeList, nsizeList_append, h]
    omega
  unfold walkAux
  rw [hk]
  simp only [walkAuxF]

/-! ## String helpers (embeddings of the Python string operations used) -/

/-- `lst` with `x` appended unless already present: `networkx` `add_node`
keeps one node per name, in first-insertion order. -/
def addIfAbsent (lst : List String) (x : String) : List String :=
  if x ∈ lst then lst else lst ++ [x]

/-- `defaultdict(list)[k].append(v)`: append `v` to the list at key `k`,
creating the key (at the end, in insertion order) if absent. -/
def indexAppend : List (String × List String) → String → String → List (String × List String)
  | [], k, v => [(k, [v])]
  | (k', l) :: rest, k, v =>
      if k' = k then (k', l ++ [v]) :: rest else (k', l) :: indexAppend rest k v

/-- Key lookup in the name index (`name in dict` / `dict[name]`). -/
def lookupIdx (idx : List (String × List String)) (k : String) : Option (List String) :=
  (idx.find? (fun p => p.1 = k)).map (fun p => p.2)

/-- Python `to_module.replace('.', '/')` (single-character replacement). -/
def replaceDots (s : String) : String :=
  String.mk (s.data.map (fun c => if c = '.' then '/' else c))

/-- Python `to_module.split('.')[0]`: the prefix before the first dot. -/
def moduleRoot (s : String) : String :=
  String.mk (s.data.takeWhile (fun c => ¬ (c = '.')))

/-- Python `to_module.startswith('.')`. -/
def startsDot (s : String) : Bool :=
  match s.data with
  | '.' :: _ => true
  | _ => false

/-- Python `s.endswith(suffix)`. -/
def endsWithStr (s suffix : String) : Bool :=
  suffix.data.isSuffixOf s.data

/-- Python `candidate.split('::')[0]`: the prefix before the first `::`. -/
def takeBeforeColons : List Char → List Char
  | [] => []
  | ':' :: ':' :: _ => []
  | c :: rest => c :: takeBeforeColons rest

/-- File of a qualified name `file :: local-name`. -/
def candFile (s : String) : String := String.mk (takeBeforeColons s.data)

/-- `str(Path(f).parent)` for a normalized relative file path: everything
before the last `/`, or `"."` when there is no separator. -/
def dirOf (s : String) : String :=
  if '/' ∈ s.data then
    String.mk ((s.data.reverse.dropWhile (fun c => ¬ (c = '/'))).drop 1).reverse
  else "."

/-- The analyzer's fixed external-library stoplist (`_add_import_edge`). -/
def externalLibs : List String :=
  ["os", "sys", "re", "json", "ast", "pathlib", "collections",
   "numpy", "pandas", "nltk", "pickle", "torch", "tensorflow",
   "sklearn", "matplotlib", "seaborn", "requests", "flask",
   "django", "fastapi", "typing", "datetime", "time", "asyncio",
   "networkx", "llama_index", "langchain", "groq", "pydantic",
   "subprocess", "shutil", "dotenv", "contextlib", "abc"]

/-- The keyword stoplist of `_collect_generic_functions` /
`_analyze_generic_file`. -/
def keywordStoplist : List String := ["if", "while", "for", "switch", "catch", "return"]

/-! ## Analyzer state (`CodePageRankAnalyzer`'s three graphs and name map) -/

/-- The mutable state of `CodePageRankAnalyzer`: the function-call graph
(nodes in insertion order, one edge per ordered pair carrying an optional
`weight` attribute), the local-name → qualified-names map
(`function_name_to_full`), the file graph and the import graph. -/
structure AnalyzerState where
  functionNodes : List String
  functionEdges : List (String × String × Option ℚ)
  index : List (String × List String)
  fileNodes : List String
  fileEdges : List (String × String)
  importNodes : List String
  importEdges : List (String × String)
deriving DecidableEq, Repr

/-- The freshly constructed analyzer (empty graphs, empty name map). -/
def initState : AnalyzerState :=
  { functionNodes := [], functionEdges := [], index := [],
    fileNodes := [], fileEdges := [], importNodes := [], importEdges := [] }

/-- The edge-list part of `add_edge(u, v[, weight=w])`: an existing
`(u, v)` edge has its attribute dict updated (a call without `weight`
leaves any previous weight in place), a new edge is appended. -/
def updateEdges (edges : List (String × String × Option ℚ)) (u v : String) (w : Option ℚ) :
    List (String × String × Option ℚ) :=
  if edges.any (fun e => e.1 = u ∧ e.2.1 = v) then
    edges.map (fun e =>
      if e.1 = u ∧ e.2.1 = v then
        (u, v, match w with | some x => some x | none => e.2.2)
      else e)
  else edges ++ [(u, v, w)]

/-- `function_graph.add_edge(u, v[, weight=w])`: both endpoints become
nodes and the edge list is updated. -/
def addCallEdge (s : AnalyzerState) (u v : String) (w : Option ℚ) : AnalyzerState :=
  { s with
    functionNodes := addIfAbsent (addIfAbsent s.functionNodes u) v,
    functionEdges := updateEdges s.functionEdges u v w }

/-- `file_graph.add_edge(u, v)` (no attributes). -/
def addFileEdge (s : AnalyzerState) (u v : String) : AnalyzerState :=
  { s with
    fileNodes := addIfAbsent (addIfAbsent s.fileNodes u) v,
    fileEdges := if (u, v) ∈ s.fileEdges then s.fileEdges else s.fileEdges ++ [(u, v)] }

/-- The first half of `_add_import_edge`: record the raw import in
the import graph (`import_graph.add_node` twice, then `add_edge`). -/
def recordImport (s : AnalyzerState) (fromFile toModule : String) : AnalyzerState :=
  { s with
    importNodes := addIfAbsent (addIfAbsent s.importNodes fromFile) toModule,
    importEdges :=
      if (fromFile, toModule) ∈ s.importEdges then s.importEdges
      else s.importEdges ++ [(fromFile, toModule)] }

/-- The `possible_files` candidate list of `_add_import_edge` (the `None`
entry that Python skips with `if pf` is simply omitted). -/
def possibleFilesFor (toModule : String) : List String :=
  [toModule ++ ".py", replaceDots toModule ++ ".py"] ++
    (if endsWithStr toModule ".py" then [toModule] else [])

/-- `_add_import_edge(from_file, to_module)`: records the raw import in
the import graph unconditionally, then adds a file-graph edge only when the
module resolves to a local file (the first of `m + ".py"`,
`m.replace('.','/') + ".py"`, or `m` itself if it ends in `.py`, that is
already a file-graph node) or, failing that, when the import is relative
(`startswith('.')`) and its root is not a known external library. -/
def addImportEdge (s : AnalyzerState) (fromFile toModule : String) : AnalyzerState :=
  match (possibleFilesFor toModule).find?
      (fun pf => pf ∈ (recordImport s fromFile toModule).fileNodes) with
  | some pf => addFileEdge (recordImport s fromFile toModule) fromFile pf
  | none =>
      if moduleRoot toModule ∉ externalLibs ∧ startsDot toModule = true then
        addFileEdge (recordImport s fromFile toModule) fromFile toModule
      else recordImport s fromFile toModule

/-- `_add_function_call_edge(caller_full_name, called_func_name,
current_file)`: the ordered resolution policy — same-file qualified name
(full confidence), unique global candidate (full confidence), same-directory
candidate (full confidence), else an edge of weight `0.3` to each of the
first three candidates in collection order; no candidates, no edge. -/
def addFunctionCallEdge (s : AnalyzerState) (callerFullName calledFuncName currentFile : String) :
    AnalyzerState :=
  if currentFile ++ "::" ++ calledFuncName ∈ s.functionNodes then
    addCallEdge s callerFullName (currentFile ++ "::" ++ calledFuncName) none
  else
    match lookupIdx s.index calledFuncName with
    | none => s
    | some candidates =>
        match candidates with
        | [c] => addCallEdge s callerFullName c none
        | _ =>
            match candidates.find? (fun c => dirOf (candFile c) = dirOf currentFile) with
            | some c => addCallEdge s callerFullName c none
            | none =>
                (candidates.take 3).foldl
                  (fun st c => addCallEdge st callerFullName c (some (3/10))) s

/-! ## Sorting (embedding of Python's stable `list.sort`) -/

/-- Stable ascending insertion: `x` goes before the first element whose key
is `≥` its own only when strictly required, i.e. before the first `y` with
`key x ≤ key y`; elements with equal keys keep their original order. -/
def insertAscByKey {α K : Type} [LinearOrder K] (key : α → K) (x : α) : List α → List α
  | [] => [x]
  | y :: ys => if key x ≤ key y then x :: y :: ys else y :: insertAscByKey key x ys

/-- Stable ascending sort by key: Python's `list.sort()` /
`sorted(..., key=...)`. -/
def sortAscByKey {α K : Type} [LinearOrder K] (key : α → K) : List α → List α
  | [] => []
  | x :: xs => insertAscByKey key x (sortAscByKey key xs)

/-- Stable descending insertion: `x` goes before the first `y` with
`key y ≤ key x`, so earlier elements precede later ones on equal keys. -/
def insertDescByKey {α K : Type} [LinearOrder K] (key : α → K) (x : α) : List α → List α
  | [] => [x]
  | y :: ys => if key y ≤ key x then x :: y :: ys else y :: insertDescByKey key x ys

/-- Stable descending sort by key: Python's
`sorted(..., key=..., reverse=True)` / `list.sort(key=..., reverse=True)`. -/
def sortDescByKey {α K : Type} [LinearOrder K] (key : α → K) : List α → List α
  | [] => []
  | x :: xs => insertDescByKey key x (sortDescByKey key xs)

/-! ## Repository model and the two analysis passes -/

/-- One eligible repository file, as the analyzer sees it.

* `python rel tree`: a Python file that `ast.parse` accepts, with parsed
  body `tree` (a file that raises a parse error contributes nothing to
  either pass — both passes run the same parse — so such files are simply
  absent from the model).
* `generic rel funcMatches callMatches importMatches`: a non-Python file,
  represented by the output of the `re` engine on its content:
  `funcMatches` are the `(match.start(), match.end(), match.group(1))`
  triples produced by the language's function-definition patterns in
  pattern order, `callMatches` the `(match.start(), match.group(1))` pairs
  of the generic call pattern `(\w+)\s*\(`, and `importMatches` the import
  targets.  `re.finditer` is deterministic in the content, so pass 1 and
  pass 2 observe the same matches. -/
inductive RepoFile where
  | python (relPath : String) (tree : List PyNode)
  | generic (relPath : String) (funcMatches : List (Nat × Nat × String))
      (callMatches : List (Nat × String)) (importMatches : List String)

/-- Pass 1 on a Python file (`_collect_python_functions`): every
`ast.FunctionDef` in the walk becomes a call-graph node and an entry of
`function_name_to_full`; `ast.AsyncFunctionDef` nodes match neither case. -/
def collectPythonFunctions (s : AnalyzerState) (rel : String) (tree : List PyNode) :
    AnalyzerState :=
  (pyWalk tree).foldl
    (fun st n =>
      match n with
      | .functionDef name _ _ =>
          { st with
            functionNodes := addIfAbsent st.functionNodes (rel ++ "::" ++ name),
            index := indexAppend st.index name (rel ++ "::" ++ name) }
      | _ => st)
    s

/-- Pass 1 on a non-Python file (`_collect_generic_functions`): each regex
match whose captured name is not a control-flow keyword becomes a node and
an index entry. -/
def collectGenericFunctions (s : AnalyzerState) (rel : String)
    (funcMatches : List (Nat × Nat × String)) : AnalyzerState :=
  funcMatches.foldl
    (fun st m =>
      if m.2.2 ∈ keywordStoplist then st
      else
        { st with
          functionNodes := addIfAbsent st.functionNodes (rel ++ "::" ++ m.2.2),
          index := indexAppend st.index m.2.2 (rel ++ "::" ++ m.2.2) })
    s

/-- Pass 1 dispatch (`analyze_repository`, first loop). -/
def collectFile (s : AnalyzerState) : RepoFile → AnalyzerState
  | .python rel tree => collectPythonFunctions s rel tree
  | .generic rel fm _ _ => collectGenericFunctions s rel fm

/-- Pass 2 on a Python file (`_analyze_file`): add the file node, then walk
the tree adding import edges for `Import`/`ImportFrom` and, for each
`ast.FunctionDef`, a call edge for every named call in its subtree (the
walk of the function node includes nested definitions' bodies, exactly as
`ast.walk(node)` does). -/
def analyzePythonFile (s : AnalyzerState) (rel : String) (tree : List PyNode) :
    AnalyzerState :=
  let s := { s with fileNodes := addIfAbsent s.fileNodes rel }
  (pyWalk tree).foldl
    (fun st n =>
      match n with
      | .importStmt names => names.foldl (fun st2 m => addImportEdge st2 rel m) st
      | .importFrom (some m) => addImportEdge st rel m
      | .functionDef fname _ body =>
          (walkAux body).foldl
            (fun st2 c =>
              match c with
              | .callName calledFunc _ =>
                  addFunctionCallEdge st2 (rel ++ "::" ++ fname) calledFunc rel
              | _ => st2)
            st
      | _ => st)
    s

/-- The containing-function search of `_analyze_generic_file`: scan the
(sorted) definition positions; the first definition starting strictly
before the call wins if the call also precedes the next definition's start
(or there is no next definition). -/
def findCaller : List (Nat × Nat × String) → Nat → Option String
  | [], _ => none
  | (st, _, nm) :: rest, pos =>
      if st < pos then
        match rest with
        | (st2, _, _) :: _ =>
            if pos < st2 then some nm else findCaller rest pos
        | [] => some nm
      else findCaller rest pos

/-- Pass 2 on a non-Python file (`_analyze_generic_file`): add the file
node and the import edges, rebuild the keyword-filtered definition
positions (sorted as Python sorts tuples, lexicographically), then for
every non-keyword call match attribute the call to its containing function
and add a call edge. -/
def analyzeGenericFile (s : AnalyzerState) (rel : String)
    (funcMatches : List (Nat × Nat × String)) (callMatches : List (Nat × String))
    (importMatches : List String) : AnalyzerState :=
  let s := { s with fileNodes := addIfAbsent s.fileNodes rel }
  let s := importMatches.foldl (fun st m => addImportEdge st rel m) s
  let definedSorted :=
    sortAscByKey (fun m : Nat × Nat × String => (toLex (m.1, toLex (m.2.1, m.2.2))))
      (funcMatches.filter (fun m => m.2.2 ∉ keywordStoplist))
  callMatches.foldl
    (fun st cm =>
      if cm.2 ∈ keywordStoplist then st
      else
        match findCaller definedSorted cm.1 with
        | some caller => addFunctionCallEdge st (rel ++ "::" ++ caller) cm.2 rel
        | none => st)
    s

/-- Pass 2 dispatch (`analyze_repository`, second loop). -/
def pass2File (s : AnalyzerState) : RepoFile → AnalyzerState
  | .python rel tree => analyzePythonFile s rel tree
  | .generic rel fm cm im => analyzeGenericFile s rel fm cm im

/-- Pass 1 over the whole repository (files in traversal order). -/
def collectPass (repo : List RepoFile) : AnalyzerState :=
  repo.foldl collectFile initState

/-- `analyze_repository`: pass 1 (symbol collection) over every eligible
file, then pass 2 (edge construction) over the same files in the same
order. -/
def analyzeRepository (repo : List RepoFile) : AnalyzerState :=
  repo.foldl pass2File (collectPass repo)

/-! ## Generic fold induction -/

theorem foldl_induction {α β : Type} (f : α → β → α) (P : α → Prop) :
    ∀ (l : List β) (s : α), P s → (∀ s' b, b ∈ l → P s' → P (f s' b)) →
      P (l.foldl f s) := by
  intro l
  induction l with
  | nil => intro s hs _; simpa using hs
  | cons x xs ih =>
      intro s hs hstep
      simp only [List.foldl_cons]
      exact ih (f s x) (hstep s x (List.mem_cons_self x xs) hs)
        (fun s' b hb => hstep s' b (List.mem_cons_of_mem x hb))

/-! ## Claim C1: FileGraph edges versus ImportGraph edges -/

/-- The correspondence that actually holds between the two graphs: every
file-graph edge `(f, t)` was added by `_add_import_edge` from a raw import
`(f, m)` recorded in the import graph, with `t` one of the three local-file
resolutions of `m` (the raw string itself, `m + ".py"`, or
`m.replace('.', '/') + ".py"`). -/
def FileEdgesResolveImports (s : AnalyzerState) : Prop :=
  ∀ e ∈ s.fileEdges,
    ∃ m, (e.1, m) ∈ s.importEdges ∧
      (e.2 = m ∨ e.2 = m ++ ".py" ∨ e.2 = replaceDots m ++ ".py")

theorem addCallEdge_fileEdges (s : AnalyzerState) (u v : String) (w : Option ℚ) :
    (addCallEdge s u v w).fileEdges = s.fileEdges := rfl

theorem addCallEdge_importEdges (s : AnalyzerState) (u v : String) (w : Option ℚ) :
    (addCallEdge s u v w).importEdges = s.importEdges := rfl

theorem addFunctionCallEdge_fileEdges (s : AnalyzerState) (a b c : String) :
    (addFunctionCallEdge s a b c).fileEdges = s.fileEdges := by
  unfold addFunctionCallEdge
  split
  · rfl
  · split
    · rfl
    · split
      · rfl
      · split
        · rfl
        · refine foldl_induction _ (fun st => st.fileEdges = s.fileEdges) _ s rfl ?_
          intro s' b _ hs'
          exact hs'

theorem addFunctionCallEdge_importEdges (s : AnalyzerState) (a b c : String) :
    (addFunctionCallEdge s a b c).importEdges = s.importEdges := by
  unfold addFunctionCallEdge
  split
  · rfl
  · split
    · rfl
    · split
      · rfl
      · split
        · rfl
        · refine foldl_induction _ (fun st => st.importEdges = s.importEdges) _ s rfl ?_
          intro s' b _ hs'
          exact hs'

theorem recordImport_fileEdges (s : AnalyzerState) (f m : String) :
    (recordImport s f m).fileEdges = s.fileEdges := rfl

theorem recordImport_importEdges_sub (s : AnalyzerState) (f m : String) :
    s.importEdges ⊆ (recordImport s f m).importEdges := by
  intro e he
  simp only [recordImport]
  split
  · exact he
  · exact List.mem_append_left _ he

theorem recordImport_mem (s : AnalyzerState) (f m : String) :
    (f, m) ∈ (recordImport s f m).importEdges := by
  simp only [recordImport]
  split
  · assumption
  · simp

theorem addFileEdge_importEdges (s : AnalyzerState) (u v : String) :
    (addFileEdge s u v).importEdges = s.importEdges := rfl

theorem addFileEdge_fileEdges_mem (s : AnalyzerState) (u v : String) :
    ∀ e ∈ (addFileEdge s u v).fileEdges, e ∈ s.fileEdges ∨ e = (u, v) := by
  intro e he
  simp only [addFileEdge] at he
  revert he
  split
  · exact fun h => Or.inl h
  · intro h
    rcases List.mem_append.mp h with h | h
    · exact Or.inl h
    · simp at h
      exact Or.inr h

theorem possibleFilesFor_shape (m pf : String) (h : pf ∈ possibleFilesFor m) :
    pf = m ∨ pf = m ++ ".py" ∨ pf = replaceDots m ++ ".py" := by
  simp only [possibleFilesFor, List.mem_append] at h
  rcases h with h | h
  · simp at h
    rcases h with h | h
    · exact Or.inr (Or.inl h)
    · exact Or.inr (Or.inr h)
  · revert h
    split
    · intro h
      simp at h
      exact Or.inl h
    · intro h
      simp at h

theorem addImportEdge_resolves (s : AnalyzerState) (f m : String)
    (hs : FileEdgesResolveImports s) :
    FileEdgesResolveImports (addImportEdge s f m) := by
  have hsub : s.importEdges ⊆ (recordImport s f m).importEdges :=
    recordImport_importEdges_sub s f m
  have hmem : (f, m) ∈ (recordImport s f m).importEdges := recordImport_mem s f m
  have hold : ∀ e ∈ (recordImport s f m).fileEdges,
      ∃ m', (e.1, m') ∈ (recordImport s f m).importEdges ∧
        (e.2 = m' ∨ e.2 = m' ++ ".py" ∨ e.2 = replaceDots m' ++ ".py") := by
    intro e he
    rw [recordImport_fileEdges] at he
    obtain ⟨m', hm', hres⟩ := hs e he
    exact ⟨m', hsub hm', hres⟩
  unfold addImportEdge
  split
  · rename_i pf hfind
    have hpf : pf = m ∨ pf = m ++ ".py" ∨ pf = replaceDots m ++ ".py" :=
      possibleFilesFor_shape m pf (List.mem_of_find?_eq_some hfind)
    intro e he
    rw [addFileEdge_importEdges]
    rcases addFileEdge_fileEdges_mem _ _ _ e he with h | h
    · exact hold e h
    · subst h
      exact ⟨m, hmem, hpf⟩
  · split
    · intro e he
      rw [addFileEdge_importEdges]
      rcases addFileEdge_fileEdges_mem _ _ _ e he with h | h
      · exact hold e h
      · subst h
        exact ⟨m, hmem, Or.inl rfl⟩
    · exact hold

theorem resolves_of_graphs_eq {s s' : AnalyzerState}
    (hf : s'.fileEdges = s.fileEdges) (hi : s'.importEdges = s.importEdges)
    (hs : FileEdgesResolveImports s) : FileEdgesResolveImports s' := by
  intro e he
  rw [hf] at he
  obtain ⟨m, hm, hres⟩ := hs e he
  rw [hi]
  exact ⟨m, hm, hres⟩

theorem collectPythonFunctions_graphs (s : AnalyzerState) (rel : String)
    (tree : List PyNode) :
    (collectPythonFunctions s rel tree).fileEdges = s.fileEdges ∧
      (collectPythonFunctions s rel tree).importEdges = s.importEdges := by
  unfold collectPythonFunctions
  refine foldl_induction _
    (fun st => st.fileEdges = s.fileEdges ∧ st.importEdges = s.importEdges)
    (pyWalk tree) s ⟨rfl, rfl⟩ ?_
  intro s' n _ hs'
  cases n <;> simpa using hs'

theorem collectGenericFunctions_graphs (s : AnalyzerState) (rel : String)
    (fm : List (Nat × Nat × String)) :
    (collectGenericFunctions s rel fm).fileEdges = s.fileEdges ∧
      (collectGenericFunctions s rel fm).importEdges = s.importEdges := by
  unfold collectGenericFunctions
  refine foldl_induction _
    (fun st => st.fileEdges = s.fileEdges ∧ st.importEdges = s.importEdges)
    fm s ⟨rfl, rfl⟩ ?_
  intro s' m _ hs'
  dsimp only
  split <;> simpa using hs'

theorem collectPass_resolves (repo : List RepoFile) :
    FileEdgesResolveImports (collectPass repo) := by
  unfold collectPass
  refine foldl_induction _ FileEdgesResolveImports repo initState ?_ ?_
  · intro e he
    simp [initState] at he
  · intro s' f _ hs'
    cases f with
    | python rel tree =>
        have h := collectPythonFunctions_graphs s' rel tree
        exact resolves_of_graphs_eq h.1 h.2 hs'
    | generic rel fm cm im =>
        have h := collectGenericFunctions_graphs s' rel fm
        exact resolves_of_graphs_eq h.1 h.2 hs'

theorem analyzePythonFile_resolves (s : AnalyzerState) (rel : String)
    (tree : List PyNode) (hs : FileEdgesResolveImports s) :
    FileEdgesResolveImports (analyzePythonFile s rel tree) := by
  unfold analyzePythonFile
  refine foldl_induction _ FileEdgesResolveImports (pyWalk tree)
    { s with fileNodes := addIfAbsent s.fileNodes rel }
    (resolves_of_graphs_eq rfl rfl hs) ?_
  intro s' n _ hs'
  cases n with
  | importStmt names =>
      refine foldl_induction _ FileEdgesResolveImports names s' hs' ?_
      intro s'' m _ hs''
      exact addImportEdge_resolves s'' rel m hs''
  | importFrom m =>
      cases m with
      | some mm => exact addImportEdge_resolves s' rel mm hs'
      | none => exact hs'
  | functionDef fname ln body =>
      refine foldl_induction _ FileEdgesResolveImports (walkAux body) s' hs' ?_
      intro s'' c _ hs''
      cases c with
      | callName calledFunc args =>
          exact resolves_of_graphs_eq
            (addFunctionCallEdge_fileEdges s'' (rel ++ "::" ++ fname) calledFunc rel)
            (addFunctionCallEdge_importEdges s'' (rel ++ "::" ++ fname) calledFunc rel)
            hs''
      | functionDef a b c => exact hs''
      | asyncFunctionDef a b c => exact hs''
      | classDef a b c => exact hs''
      | importStmt a => exact hs''
      | importFrom a => exact hs''
      | other a => exact hs''
  | asyncFunctionDef a b c => exact hs'
  | classDef a b c => exact hs'
  | callName a b => exact hs'
  | other a => exact hs'

theorem analyzeGenericFile_resolves (s : AnalyzerState) (rel : String)
    (fm : List (Nat × Nat × String)) (cm : List (Nat × String)) (im : List String)
    (hs : FileEdgesResolveImports s) :
    FileEdgesResolveImports (analyzeGenericFile s rel fm cm im) := by
  unfold analyzeGenericFile
  refine foldl_induction _ FileEdgesResolveImports cm _ ?_ ?_
  · refine foldl_induction _ FileEdgesResolveImports im _ ?_ ?_
    · exact resolves_of_graphs_eq rfl rfl hs
    · intro s'' m _ hs''
      exact addImportEdge_resolves s'' rel m hs''
  · intro s' c _ hs'
    dsimp only
    split
    · exact hs'
    · split
      · rename_i caller _
        exact resolves_of_graphs_eq
          (addFunctionCallEdge_fileEdges s' (rel ++ "::" ++ caller) c.2 rel)
          (addFunctionCallEdge_importEdges s' (rel ++ "::" ++ caller) c.2 rel)
          hs'
      · exact hs'

/-- **C1** (corrected).  The claim as stated — every FileGraph edge has an
ImportGraph edge with the *same endpoints* — is false (see
`C1_counterexample`): `_add_import_edge` records the raw module string in
the import graph but the *resolved filename* in the file graph.  What does
hold, for every repository analysis, is that every FileGraph edge `(f, t)`
comes from an ImportGraph edge `(f, m)` with the same source, where `t` is
one of the three local-file resolutions of the raw module `m`
(`m` itself, `m + ".py"`, or `m.replace('.', '/') + ".py"`); the converse
need not hold. -/
theorem C1_fileGraph_edges_resolve_importGraph (repo : List RepoFile) :
    FileEdgesResolveImports (analyzeRepository repo) := by
  unfold analyzeRepository
  refine foldl_induction _ FileEdgesResolveImports repo (collectPass repo)
    (collectPass_resolves repo) ?_
  intro s' f _ hs'
  cases f with
  | python rel tree => exact analyzePythonFile_resolves s' rel tree hs'
  | generic rel fm cm im => exact analyzeGenericFile_resolves s' rel fm cm im hs'

/-- A two-file repository: `utils.py` (empty) and `a.py` containing
`import utils` (this is the parse of those two files, analyzed in
filesystem order). -/
def repoC1 : List RepoFile :=
  [RepoFile.python "utils.py" [], RepoFile.python "a.py" [PyNode.importStmt ["utils"]]]

/-- **C1 counterexample.**  Analyzing `repoC1` puts the edge
`("a.py", "utils.py")` in FileGraph, but ImportGraph records only
`("a.py", "utils")` — there is no ImportGraph edge with the same endpoints
as the FileGraph edge, refuting the claim that FileGraph edges are a
subset of ImportGraph edges with identical endpoints. -/
theorem C1_counterexample :
    ("a.py", "utils.py") ∈ (analyzeRepository repoC1).fileEdges ∧
      ("a.py", "utils.py") ∉ (analyzeRepository repoC1).importEdges ∧
      (analyzeRepository repoC1).importEdges = [("a.py", "utils")] := by
  decide

/-- **C1 witness.**  The amended statement applied to the concrete
repository `repoC1` and its single FileGraph edge: the resolving raw
module is `"utils"`. -/
theorem C1_witness :
    ∃ m, (("a.py", "utils.py").1, m) ∈ (analyzeRepository repoC1).importEdges ∧
      (("a.py", "utils.py").2 = m ∨ ("a.py", "utils.py").2 = m ++ ".py" ∨
        ("a.py", "utils.py").2 = replaceDots m ++ ".py") :=
  C1_fileGraph_edges_resolve_importGraph repoC1 ("a.py", "utils.py") (by decide)

/-! ## Claim C2: the ambiguous-call policy -/

/-- The `weight` attribute of the `(u, v)` call-graph edge: `none` when the
edge is absent, `some w` when present with attribute dict `w`. -/
def edgeWeight (edges : List (String × String × Option ℚ)) (u v : String) :
    Option (Option ℚ) :=
  (edges.find? (fun e => e.1 = u ∧ e.2.1 = v)).map (fun e => e.2.2)

theorem updateEdges_pred_comp (u v u' v' : String) (w : Option ℚ)
    (hne : ¬ (u' = u ∧ v' = v)) :
    ((fun e : String × String × Option ℚ => decide (e.1 = u ∧ e.2.1 = v)) ∘
        (fun e : String × String × Option ℚ =>
          if e.1 = u' ∧ e.2.1 = v' then
            (u', v', match w with | some x => some x | none => e.2.2)
          else e)) =
      (fun e : String × String × Option ℚ => decide (e.1 = u ∧ e.2.1 = v)) := by
  funext e
  by_cases hm : e.1 = u' ∧ e.2.1 = v'
  · simp only [Function.comp_apply, if_pos hm]
    have h1 : ¬ (u' = u ∧ v' = v) := hne
    have h2 : ¬ (e.1 = u ∧ e.2.1 = v) := by
      intro hc
      exact hne ⟨hm.1.symm.trans hc.1, hm.2.symm.trans hc.2⟩
    simp [h1, h2]
  · simp [Function.comp_apply, if_neg hm]

theorem edgeWeight_update_self (E : List (String × String × Option ℚ)) (u v : String)
    (x : ℚ) : edgeWeight (updateEdges E u v (some x)) u v = some (some x) := by
  unfold updateEdges edgeWeight
  by_cases hany : E.any (fun e => decide (e.1 = u ∧ e.2.1 = v)) = true
  · rw [if_pos hany, List.find?_map]
    have hcomp :
        ((fun e : String × String × Option ℚ => decide (e.1 = u ∧ e.2.1 = v)) ∘
            (fun e : String × String × Option ℚ =>
              if e.1 = u ∧ e.2.1 = v then
                (u, v, match some x with | some y => some y | none => e.2.2)
              else e)) =
          (fun e : String × String × Option ℚ => decide (e.1 = u ∧ e.2.1 = v)) := by
      funext e
      by_cases hm : e.1 = u ∧ e.2.1 = v
      · simp [if_pos hm, hm.1, hm.2]
      · simp only [Function.comp_apply, if_neg hm]
    rw [hcomp]
    obtain ⟨e₀, _, hp⟩ := List.any_eq_true.mp hany
    have hsome : (E.find? (fun e => decide (e.1 = u ∧ e.2.1 = v))).isSome := by
      rw [List.find?_isSome]
      exact ⟨e₀, by assumption, hp⟩
    obtain ⟨e₁, he₁⟩ := Option.isSome_iff_exists.mp hsome
    have hp₁ : (e₁.1 = u ∧ e₁.2.1 = v) := by
      have := List.find?_some he₁
      simpa using this
    rw [he₁]
    simp [if_pos hp₁]
  · rw [if_neg hany, List.find?_append]
    have hf : E.any (fun e => decide (e.1 = u ∧ e.2.1 = v)) = false :=
      Bool.eq_false_iff.mpr hany
    have hnone : E.find? (fun e => decide (e.1 = u ∧ e.2.1 = v)) = none := by
      rw [List.find?_eq_none]
      exact List.any_eq_false.mp hf
    rw [hnone]
    simp

theorem edgeWeight_update_other (E : List (String × String × Option ℚ))
    (u v u' v' : String) (w : Option ℚ) (hne : ¬ (u' = u ∧ v' = v)) :
    edgeWeight (updateEdges E u' v' w) u v = edgeWeight E u v := by
  unfold updateEdges edgeWeight
  by_cases hany : E.any (fun e => decide (e.1 = u' ∧ e.2.1 = v')) = true
  · rw [if_pos hany, List.find?_map, updateEdges_pred_comp u v u' v' w hne]
    cases hfind : E.find? (fun e => decide (e.1 = u ∧ e.2.1 = v)) with
    | none => simp
    | some e₀ =>
        have hp₀ : (e₀.1 = u ∧ e₀.2.1 = v) := by
          have := List.find?_some hfind
          simpa using this
        have hne₀ : ¬ (e₀.1 = u' ∧ e₀.2.1 = v') := by
          intro hc
          exact hne ⟨hc.1.symm.trans hp₀.1, hc.2.symm.trans hp₀.2⟩
        simp [if_neg hne₀]
  · rw [if_neg hany, List.find?_append]
    have hlast : List.find? (fun e => decide (e.1 = u ∧ e.2.1 = v)) [(u', v', w)] = none := by
      simp only [List.find?_singleton]
      have : ¬ ((u', v', w).1 = u ∧ (u', v', w).2.1 = v) := by
        simpa using hne
      simp [this]
    rw [hlast]
    simp

theorem addCallEdge_functionEdges (s : AnalyzerState) (u v : String) (w : Option ℚ) :
    (addCallEdge s u v w).functionEdges = updateEdges s.functionEdges u v w := rfl

theorem edgeWeight_fold_other (caller : String) (w : ℚ) (c : String) :
    ∀ (targets : List String) (s : AnalyzerState), (∀ c' ∈ targets, c' ≠ c) →
      edgeWeight
        ((targets.foldl (fun st c' => addCallEdge st caller c' (some w)) s).functionEdges)
        caller c = edgeWeight s.functionEdges caller c := by
  intro targets
  induction targets with
  | nil => intro s _; rfl
  | cons t ts ih =>
      intro s hne
      simp only [List.foldl_cons]
      rw [ih (addCallEdge s caller t (some w))
        (fun c' hc' => hne c' (List.mem_cons_of_mem t hc'))]
      rw [addCallEdge_functionEdges]
      exact edgeWeight_update_other _ caller c caller t (some w)
        (fun hc => hne t (List.mem_cons_self t ts) hc.2)

theorem edgeWeight_fold_mem (caller : String) (w : ℚ) :
    ∀ (targets : List String) (s : AnalyzerState) (c : String), c ∈ targets →
      edgeWeight
        ((targets.foldl (fun st c' => addCallEdge st caller c' (some w)) s).functionEdges)
        caller c = some (some w) := by
  intro targets
  induction targets with
  | nil => intro s c hc; simp at hc
  | cons t ts ih =>
      intro s c hc
      by_cases hmem : c ∈ ts
      · simp only [List.foldl_cons]
        exact ih (addCallEdge s caller t (some w)) c hmem
      · have hct : c = t := by
          rcases List.mem_cons.mp hc with h | h
          · exact h
          · exact absurd h hmem
        subst hct
        simp only [List.foldl_cons]
        rw [edgeWeight_fold_other caller w c ts (addCallEdge s caller c (some w))
          (fun c' hc' hcc => hmem (hcc ▸ hc'))]
        rw [addCallEdge_functionEdges]
        exact edgeWeight_update_self _ caller c w

/-- **C2** (confirmed).  `_add_function_call_edge` under genuine ambiguity:
when the called local name has at least two candidate qualified names in
the SymbolIndex, no definition of that name exists in the caller's own
file (the same-file qualified name is not a call-graph node, which is how
the code tests "in the caller's own file"), and no candidate shares the
caller's directory, then an edge is added from the caller to *each* of the
first three candidates in collection order, every one carrying weight
`0.3` — in particular with exactly two candidates, edges to both at `0.3`,
never a single silently-chosen edge. -/
theorem C2_ambiguity_adds_edges_to_first_three
    (s : AnalyzerState) (caller called currentFile : String) (cands : List String)
    (hlook : lookupIdx s.index called = some cands)
    (hlen : 2 ≤ cands.length)
    (hsame : currentFile ++ "::" ++ called ∉ s.functionNodes)
    (hdir : ∀ c ∈ cands, ¬ dirOf (candFile c) = dirOf currentFile) :
    ∀ c ∈ cands.take 3,
      edgeWeight (addFunctionCallEdge s caller called currentFile).functionEdges
        caller c = some (some (3/10)) := by
  intro c hc
  unfold addFunctionCallEdge
  rw [if_neg hsame, hlook]
  have hfind : cands.find? (fun c => decide (dirOf (candFile c) = dirOf currentFile)) =
      none := by
    rw [List.find?_eq_none]
    intro a ha
    simpa using hdir a ha
  match cands, hlen, hc, hfind with
  | a :: b :: rest, _, hc, hfind =>
      simp only [hfind]
      exact edgeWeight_fold_mem caller (3/10) ((a :: b :: rest).take 3) s c hc

/-- A pre-pass-2 analyzer state with two same-named candidates in
unrelated directories (as pass 1 leaves it for two files `a/x.py` and
`b/y.py`, each defining `foo`). -/
def sC2 : AnalyzerState :=
  { initState with
    functionNodes := ["a/x.py::foo", "b/y.py::foo"],
    index := [("foo", ["a/x.py::foo", "b/y.py::foo"])] }

/-- **C2 witness.**  A call to `foo` from `c/z.py::bar` in `c/z.py` (no
same-file definition, no directory affinity, exactly two candidates) puts
weight-`0.3` edges to *both* candidates. -/
theorem C2_witness :
    edgeWeight (addFunctionCallEdge sC2 "c/z.py::bar" "foo" "c/z.py").functionEdges
        "c/z.py::bar" "a/x.py::foo" = some (some (3/10)) ∧
      edgeWeight (addFunctionCallEdge sC2 "c/z.py::bar" "foo" "c/z.py").functionEdges
        "c/z.py::bar" "b/y.py::foo" = some (some (3/10)) :=
  ⟨C2_ambiguity_adds_edges_to_first_three sC2 "c/z.py::bar" "foo" "c/z.py"
      ["a/x.py::foo", "b/y.py::foo"] (by decide) (by decide) (by decide) (by decide)
      "a/x.py::foo" (by decide),
    C2_ambiguity_adds_edges_to_first_three sC2 "c/z.py::bar" "foo" "c/z.py"
      ["a/x.py::foo", "b/y.py::foo"] (by decide) (by decide) (by decide) (by decide)
      "b/y.py::foo" (by decide)⟩

/-! ## Claims C3 and C10: the two-pass discipline -/

/-- A qualified name is *registered* in an index (`function_name_to_full`)
when it appears in the candidate list of some local name. -/
def RegisteredIdx (idx : List (String × List String)) (n : String) : Prop :=
  ∃ k l, lookupIdx idx k = some l ∧ n ∈ l

theorem lookupIdx_nil (k : String) : lookupIdx [] k = none := rfl

theorem lookupIdx_cons (k₀ : String) (l₀ : List String)
    (rest : List (String × List String)) (k' : String) :
    lookupIdx ((k₀, l₀) :: rest) k' =
      if k₀ = k' then some l₀ else lookupIdx rest k' := by
  simp only [lookupIdx, List.find?_cons]
  by_cases h : k₀ = k'
  · rw [show (decide ((k₀, l₀).1 = k')) = true by simpa using h, if_pos h]
    rfl
  · rw [show (decide ((k₀, l₀).1 = k')) = false by simpa using h, if_neg h]

theorem lookupIdx_indexAppend (idx : List (String × List String)) (k v k' : String) :
    lookupIdx (indexAppend idx k v) k' =
      if k' = k then some ((lookupIdx idx k).getD [] ++ [v])
      else lookupIdx idx k' := by
  induction idx with
  | nil =>
      by_cases h : k' = k
      · subst h
        simp [indexAppend, lookupIdx_cons, lookupIdx_nil]
      · have h' : ¬ (k = k') := fun hh => h hh.symm
        simp [indexAppend, lookupIdx_cons, lookupIdx_nil, h, h']
  | cons p rest ih =>
      obtain ⟨k₀, l₀⟩ := p
      by_cases h0 : k₀ = k
      · subst h0
        by_cases h : k' = k₀
        · subst h
          simp [indexAppend, lookupIdx_cons]
        · have h' : ¬ (k₀ = k') := fun hh => h hh.symm
          simp [indexAppend, lookupIdx_cons, h, h']
      · by_cases h : k' = k₀
        · subst h
          have h0' : ¬ (k' = k) := fun hh => h0 (hh ▸ rfl)
          simp [indexAppend, lookupIdx_cons, h0, h0']
        · have h' : ¬ (k₀ = k') := fun hh => h hh.symm
          by_cases hk : k' = k
          · subst hk
            simp [indexAppend, lookupIdx_cons, h0, h', ih]
          · simp [indexAppend, lookupIdx_cons, h0, h', hk, ih]

theorem registered_indexAppend (idx : List (String × List String)) (k v n : String)
    (h : RegisteredIdx idx n) : RegisteredIdx (indexAppend idx k v) n := by
  obtain ⟨k', l, hl, hn⟩ := h
  by_cases hk : k' = k
  · subst hk
    refine ⟨k', (lookupIdx idx k').getD [] ++ [v], ?_, ?_⟩
    · rw [lookupIdx_indexAppend, if_pos rfl]
    · rw [hl]
      exact List.mem_append_left _ hn
  · exact ⟨k', l, by rw [lookupIdx_indexAppend, if_neg hk]; exact hl, hn⟩

theorem registered_indexAppend_self (idx : List (String × List String)) (k v : String) :
    RegisteredIdx (indexAppend idx k v) v := by
  refine ⟨k, (lookupIdx idx k).getD [] ++ [v], ?_, ?_⟩
  · rw [lookupIdx_indexAppend, if_pos rfl]
  · simp

theorem mem_addIfAbsent (l : List String) (x n : String) (h : n ∈ addIfAbsent l x) :
    n ∈ l ∨ n = x := by
  unfold addIfAbsent at h
  split at h
  · exact Or.inl h
  · rcases List.mem_append.mp h with h | h
    · exact Or.inl h
    · simp at h
      exact Or.inr h

theorem mem_addIfAbsent_self (l : List String) (x : String) : x ∈ addIfAbsent l x := by
  unfold addIfAbsent
  split
  · assumption
  · simp

theorem mem_addIfAbsent_of_mem (l : List String) (x n : String) (h : n ∈ l) :
    n ∈ addIfAbsent l x := by
  unfold addIfAbsent
  split
  · exact h
  · exact List.mem_append_left _ h

/-- The `(local name, qualified name)` pairs a file contributes in Pass 1:
for Python files one per `ast.FunctionDef` in the walk, for generic files
one per non-keyword regex match. -/
def collectedPairs : RepoFile → List (String × String)
  | .python rel tree =>
      (pyWalk tree).filterMap (fun n =>
        match n with
        | .functionDef nm _ _ => some (nm, rel ++ "::" ++ nm)
        | _ => none)
  | .generic rel fm _ _ =>
      (fm.filter (fun m => m.2.2 ∉ keywordStoplist)).map
        (fun m => (m.2.2, rel ++ "::" ++ m.2.2))

theorem collectPythonFunctions_index_mono (s : AnalyzerState) (rel : String)
    (tree : List PyNode) (n : String) (h : RegisteredIdx s.index n) :
    RegisteredIdx (collectPythonFunctions s rel tree).index n := by
  unfold collectPythonFunctions
  refine foldl_induction _ (fun st => RegisteredIdx st.index n) (pyWalk tree) s h ?_
  intro s' nd _ hs'
  cases nd <;> first
    | exact hs'
    | exact registered_indexAppend _ _ _ _ hs'

theorem collectGenericFunctions_index_mono (s : AnalyzerState) (rel : String)
    (fm : List (Nat × Nat × String)) (n : String) (h : RegisteredIdx s.index n) :
    RegisteredIdx (collectGenericFunctions s rel fm).index n := by
  unfold collectGenericFunctions
  refine foldl_induction _ (fun st => RegisteredIdx st.index n) fm s h ?_
  intro s' m _ hs'
  dsimp only
  split
  · exact hs'
  · exact registered_indexAppend _ _ _ _ hs'

theorem collectFile_index_mono (s : AnalyzerState) (f : RepoFile) (n : String)
    (h : RegisteredIdx s.index n) : RegisteredIdx (collectFile s f).index n := by
  cases f with
  | python rel tree => exact collectPythonFunctions_index_mono s rel tree n h
  | generic rel fm cm im => exact collectGenericFunctions_index_mono s rel fm n h

theorem collectPy_fold_registers (rel nm : String) (ln : Nat) (body : List PyNode) :
    ∀ (l : List PyNode) (s : AnalyzerState), PyNode.functionDef nm ln body ∈ l →
      RegisteredIdx
        ((l.foldl
          (fun (st : AnalyzerState) (n : PyNode) =>
            match n with
            | .functionDef name _ _ =>
                { st with
                  functionNodes := addIfAbsent st.functionNodes (rel ++ "::" ++ name),
                  index := indexAppend st.index name (rel ++ "::" ++ name) }
            | _ => st) s).index)
        (rel ++ "::" ++ nm) := by
  intro l
  induction l with
  | nil => intro s h; simp at h
  | cons hd tl ih =>
      intro s h
      rcases List.mem_cons.mp h with h | h
      · simp only [List.foldl_cons]
        rw [← h]
        refine foldl_induction _
          (fun (st : AnalyzerState) => RegisteredIdx st.index (rel ++ "::" ++ nm))
          tl _ ?_ ?_
        · exact registered_indexAppend_self _ _ _
        · intro s' nd _ hs'
          cases nd <;> first
            | exact hs'
            | exact registered_indexAppend _ _ _ _ hs'
      · exact ih _ h

theorem collectGen_fold_registers (rel : String) (mm : Nat × Nat × String) :
    ∀ (l : List (Nat × Nat × String)) (s : AnalyzerState), mm ∈ l →
      mm.2.2 ∉ keywordStoplist →
      RegisteredIdx
        ((l.foldl
          (fun (st : AnalyzerState) (m : Nat × Nat × String) =>
            if m.2.2 ∈ keywordStoplist then st
            else
              { st with
                functionNodes := addIfAbsent st.functionNodes (rel ++ "::" ++ m.2.2),
                index := indexAppend st.index m.2.2 (rel ++ "::" ++ m.2.2) }) s).index)
        (rel ++ "::" ++ mm.2.2) := by
  intro l
  induction l with
  | nil => intro s h _; simp at h
  | cons hd tl ih =>
      intro s h hkw
      rcases List.mem_cons.mp h with h | h
      · subst h
        simp only [List.foldl_cons]
        rw [if_neg hkw]
        refine foldl_induction _
          (fun (st : AnalyzerState) => RegisteredIdx st.index (rel ++ "::" ++ mm.2.2))
          tl _ ?_ ?_
        · exact registered_indexAppend_self _ _ _
        · intro s' nd _ hs'
          dsimp only
          split
          · exact hs'
          · exact registered_indexAppend _ _ _ _ hs'
      · exact ih _ h hkw

theorem collectFile_registers (s : AnalyzerState) (f : RepoFile) (k full : String)
    (h : (k, full) ∈ collectedPairs f) : RegisteredIdx (collectFile s f).index full := by
  cases f with
  | python rel tree =>
      simp only [collectedPairs, List.mem_filterMap] at h
      obtain ⟨nd, hnd, hmatch⟩ := h
      cases nd with
      | functionDef name ln body =>
          simp only at hmatch
          have h1 : rel ++ "::" ++ name = full := congrArg Prod.snd (Option.some.inj hmatch)
          rw [← h1]
          exact collectPy_fold_registers rel name ln body (pyWalk tree) s hnd
      | asyncFunctionDef a b c => exact absurd hmatch (by simp)
      | classDef a b c => exact absurd hmatch (by simp)
      | importStmt a => exact absurd hmatch (by simp)
      | importFrom a => exact absurd hmatch (by simp)
      | callName a b => exact absurd hmatch (by simp)
      | other a => exact absurd hmatch (by simp)
  | generic rel fm cm im =>
      simp only [collectedPairs, List.mem_map] at h
      obtain ⟨m, hm, hmatch⟩ := h
      have hmem := List.mem_filter.mp hm
      have hkw : m.2.2 ∉ keywordStoplist := by
        have := hmem.2
        simpa using this
      have h2 : rel ++ "::" ++ m.2.2 = full := congrArg Prod.snd hmatch
      rw [← h2]
      exact collectGen_fold_registers rel m fm s hmem.1 hkw

theorem collectPass_registered (repo : List RepoFile) :
    ∀ (s : AnalyzerState) (f : RepoFile), f ∈ repo → ∀ k full,
      (k, full) ∈ collectedPairs f →
      RegisteredIdx (repo.foldl collectFile s).index full := by
  induction repo with
  | nil => intro s f hf; simp at hf
  | cons hd tl ih =>
      intro s f hf k full hp
      rcases List.mem_cons.mp hf with hf | hf
      · subst hf
        simp only [List.foldl_cons]
        refine foldl_induction _
          (fun (st : AnalyzerState) => RegisteredIdx st.index full) tl _ ?_ ?_
        · exact collectFile_registers s f k full hp
        · intro s' f' _ hs'
          exact collectFile_index_mono s' f' full hs'
      · simp only [List.foldl_cons]
        exact ih (collectFile s hd) f hf k full hp

theorem collectPass_pass1Inv (repo : List RepoFile) :
    ∀ n ∈ (collectPass repo).functionNodes, RegisteredIdx (collectPass repo).index n := by
  unfold collectPass
  refine foldl_induction _
    (fun (st : AnalyzerState) => ∀ n ∈ st.functionNodes, RegisteredIdx st.index n)
    repo initState (by intro n hn; simp [initState] at hn) ?_
  intro s' f _ hs'
  cases f with
  | python rel tree =>
      unfold collectFile collectPythonFunctions
      refine foldl_induction _
        (fun (st : AnalyzerState) => ∀ n ∈ st.functionNodes, RegisteredIdx st.index n)
        (pyWalk tree) s' hs' ?_
      intro s'' nd _ hs'' n hn
      cases nd <;> first
        | exact hs'' n hn
        | {
            rcases mem_addIfAbsent _ _ _ hn with h | h
            · exact registered_indexAppend _ _ _ _ (hs'' n h)
            · rw [h]
              exact registered_indexAppend_self _ _ _
          }
  | generic rel fm cm im =>
      unfold collectFile collectGenericFunctions
      refine foldl_induction _
        (fun (st : AnalyzerState) => ∀ n ∈ st.functionNodes, RegisteredIdx st.index n)
        fm s' hs' ?_
      intro s'' m _ hs'' n hn
      dsimp only at hn ⊢
      revert hn
      split
      · exact fun hn => hs'' n hn
      · intro hn
        rcases mem_addIfAbsent _ _ _ hn with h | h
        · exact registered_indexAppend _ _ _ _ (hs'' n h)
        · rw [h]
          exact registered_indexAppend_self _ _ _

theorem collectPass_functionEdges (repo : List RepoFile) :
    (collectPass repo).functionEdges = [] := by
  unfold collectPass
  refine foldl_induction _ (fun (st : AnalyzerState) => st.functionEdges = []) repo
    initState rfl ?_
  intro s' f _ hs'
  cases f with
  | python rel tree =>
      unfold collectFile collectPythonFunctions
      refine foldl_induction _ (fun (st : AnalyzerState) => st.functionEdges = [])
        (pyWalk tree) s' hs' ?_
      intro s'' nd _ hs''
      cases nd <;> simpa using hs''
  | generic rel fm cm im =>
      unfold collectFile collectGenericFunctions
      refine foldl_induction _ (fun (st : AnalyzerState) => st.functionEdges = [])
        fm s' hs' ?_
      intro s'' m _ hs''
      dsimp only
      split <;> simpa using hs''

/-- The pass-2 invariant: the SymbolIndex is exactly the pass-1 index, and
every call-graph node and edge endpoint is registered in it. -/
def Pass2Inv (s1 st : AnalyzerState) : Prop :=
  st.index = s1.index ∧
    (∀ n ∈ st.functionNodes, RegisteredIdx s1.index n) ∧
    (∀ e ∈ st.functionEdges, RegisteredIdx s1.index e.1 ∧ RegisteredIdx s1.index e.2.1)

theorem mem_updateEdges (E : List (String × String × Option ℚ)) (u v : String)
    (w : Option ℚ) (e : String × String × Option ℚ) (he : e ∈ updateEdges E u v w) :
    e ∈ E ∨ (e.1 = u ∧ e.2.1 = v) := by
  unfold updateEdges at he
  split at he
  · obtain ⟨e₀, he₀, heq⟩ := List.mem_map.mp he
    by_cases hm : e₀.1 = u ∧ e₀.2.1 = v
    · rw [if_pos hm] at heq
      right
      rw [← heq]
      exact ⟨rfl, rfl⟩
    · rw [if_neg hm] at heq
      exact Or.inl (heq ▸ he₀)
  · rcases List.mem_append.mp he with h | h
    · exact Or.inl h
    · simp at h
      right
      rw [h]
      exact ⟨rfl, rfl⟩

theorem addCallEdge_pass2Inv {s1 st : AnalyzerState} {u v : String} {w : Option ℚ}
    (hu : RegisteredIdx s1.index u) (hv : RegisteredIdx s1.index v)
    (hinv : Pass2Inv s1 st) : Pass2Inv s1 (addCallEdge st u v w) := by
  obtain ⟨hidx, hnodes, hedges⟩ := hinv
  refine ⟨hidx, ?_, ?_⟩
  · intro n hn
    rcases mem_addIfAbsent _ _ _ hn with h | h
    · rcases mem_addIfAbsent _ _ _ h with h' | h'
      · exact hnodes n h'
      · exact h' ▸ hu
    · exact h ▸ hv
  · intro e he
    rcases mem_updateEdges _ _ _ _ e he with h | h
    · exact hedges e h
    · exact ⟨h.1 ▸ hu, h.2 ▸ hv⟩

theorem addImportEdge_functionFields (s : AnalyzerState) (f m : String) :
    (addImportEdge s f m).functionNodes = s.functionNodes ∧
      (addImportEdge s f m).functionEdges = s.functionEdges ∧
      (addImportEdge s f m).index = s.index := by
  unfold addImportEdge
  split
  · exact ⟨rfl, rfl, rfl⟩
  · split
    · exact ⟨rfl, rfl, rfl⟩
    · exact ⟨rfl, rfl, rfl⟩

theorem addImportEdge_pass2Inv {s1 st : AnalyzerState} {f m : String}
    (hinv : Pass2Inv s1 st) : Pass2Inv s1 (addImportEdge st f m) := by
  obtain ⟨h1, h2, h3⟩ := addImportEdge_functionFields st f m
  obtain ⟨hidx, hnodes, hedges⟩ := hinv
  exact ⟨h3.trans hidx, fun n hn => hnodes n (h1 ▸ hn), fun e he => hedges e (h2 ▸ he)⟩

theorem addFunctionCallEdge_pass2Inv {s1 st : AnalyzerState}
    {caller called rel : String}
    (hcaller : RegisteredIdx s1.index caller)
    (hinv : Pass2Inv s1 st) : Pass2Inv s1 (addFunctionCallEdge st caller called rel) := by
  have hidx := hinv.1
  unfold addFunctionCallEdge
  split
  · rename_i hmem
    exact addCallEdge_pass2Inv hcaller (hinv.2.1 _ hmem) hinv
  · split
    · exact hinv
    · rename_i cands hlook
      have hcands : ∀ c ∈ cands, RegisteredIdx s1.index c := by
        intro c hc
        exact ⟨called, cands, hidx ▸ hlook, hc⟩
      split
      · rename_i c
        exact addCallEdge_pass2Inv hcaller (hcands c (by simp)) hinv
      · split
        · rename_i c hfind
          exact addCallEdge_pass2Inv hcaller
            (hcands c (List.mem_of_find?_eq_some hfind)) hinv
        · refine foldl_induction _ (Pass2Inv s1) (cands.take 3) st hinv ?_
          intro st' c hc hinv'
          exact addCallEdge_pass2Inv hcaller
            (hcands c (List.mem_of_mem_take hc)) hinv'

theorem pass2Inv_fileNodes {s1 st : AnalyzerState} (rel : String)
    (hinv : Pass2Inv s1 st) :
    Pass2Inv s1 { st with fileNodes := addIfAbsent st.fileNodes rel } := hinv

theorem findCaller_mem (pos : Nat) :
    ∀ (l : List (Nat × Nat × String)) (nm : String), findCaller l pos = some nm →
      ∃ st en, (st, en, nm) ∈ l := by
  intro l
  induction l with
  | nil => intro nm h; simp [findCaller] at h
  | cons hd tl ih =>
      intro nm h
      obtain ⟨st₀, en₀, nm₀⟩ := hd
      unfold findCaller at h
      split at h
      · cases tl with
        | nil =>
            simp only at h
            cases h
            exact ⟨st₀, en₀, by simp⟩
        | cons hd₂ tl₂ =>
            simp only at h
            split at h
            · cases h
              exact ⟨st₀, en₀, by simp⟩
            · obtain ⟨st', en', hmem⟩ := ih nm h
              exact ⟨st', en', List.mem_cons_of_mem _ hmem⟩
      · obtain ⟨st', en', hmem⟩ := ih nm h
        exact ⟨st', en', List.mem_cons_of_mem _ hmem⟩

theorem mem_insertAscByKey {α K : Type} [LinearOrder K] (key : α → K) (x y : α)
    (l : List α) (h : y ∈ insertAscByKey key x l) : y = x ∨ y ∈ l := by
  induction l with
  | nil =>
      simp only [insertAscByKey, List.mem_singleton] at h
      exact Or.inl h
  | cons hd tl ih =>
      unfold insertAscByKey at h
      split at h
      · rcases List.mem_cons.mp h with h | h
        · exact Or.inl h
        · exact Or.inr h
      · rcases List.mem_cons.mp h with h | h
        · exact Or.inr (h ▸ List.mem_cons_self hd tl)
        · rcases ih h with h' | h'
          · exact Or.inl h'
          · exact Or.inr (List.mem_cons_of_mem _ h')

theorem mem_sortAscByKey {α K : Type} [LinearOrder K] (key : α → K) (y : α) :
    ∀ (l : List α), y ∈ sortAscByKey key l → y ∈ l := by
  intro l
  induction l with
  | nil => intro h; simp [sortAscByKey] at h
  | cons hd tl ih =>
      intro h
      unfold sortAscByKey at h
      rcases mem_insertAscByKey key hd y _ h with h' | h'
      · exact h' ▸ List.mem_cons_self hd tl
      · exact List.mem_cons_of_mem _ (ih h')

theorem analyzePythonFile_pass2Inv {s1 st : AnalyzerState} {rel : String}
    {tree : List PyNode}
    (hreg : ∀ nm ln body, PyNode.functionDef nm ln body ∈ pyWalk tree →
      RegisteredIdx s1.index (rel ++ "::" ++ nm))
    (hinv : Pass2Inv s1 st) : Pass2Inv s1 (analyzePythonFile st rel tree) := by
  unfold analyzePythonFile
  refine foldl_induction _ (Pass2Inv s1) (pyWalk tree) _
    (pass2Inv_fileNodes rel hinv) ?_
  intro st' nd hnd hinv'
  cases nd with
  | importStmt names =>
      refine foldl_induction _ (Pass2Inv s1) names st' hinv' ?_
      intro st'' m _ hinv''
      exact addImportEdge_pass2Inv hinv''
  | importFrom m =>
      cases m with
      | some mm => exact addImportEdge_pass2Inv hinv'
      | none => exact hinv'
  | functionDef fname ln body =>
      have hcaller : RegisteredIdx s1.index (rel ++ "::" ++ fname) :=
        hreg fname ln body hnd
      refine foldl_induction _ (Pass2Inv s1) (walkAux body) st' hinv' ?_
      intro st'' c _ hinv''
      cases c with
      | callName calledFunc args => exact addFunctionCallEdge_pass2Inv hcaller hinv''
      | functionDef a b c => exact hinv''
      | asyncFunctionDef a b c => exact hinv''
      | classDef a b c => exact hinv''
      | importStmt a => exact hinv''
      | importFrom a => exact hinv''
      | other a => exact hinv''
  | asyncFunctionDef a b c => exact hinv'
  | classDef a b c => exact hinv'
  | callName a b => exact hinv'
  | other a => exact hinv'

theorem analyzeGenericFile_pass2Inv {s1 st : AnalyzerState} {rel : String}
    {fm : List (Nat × Nat × String)} {cm : List (Nat × String)} {im : List String}
    (hreg : ∀ m ∈ fm, m.2.2 ∉ keywordStoplist →
      RegisteredIdx s1.index (rel ++ "::" ++ m.2.2))
    (hinv : Pass2Inv s1 st) : Pass2Inv s1 (analyzeGenericFile st rel fm cm im) := by
  unfold analyzeGenericFile
  have him : Pass2Inv s1
      (im.foldl (fun st' m => addImportEdge st' rel m)
        { st with fileNodes := addIfAbsent st.fileNodes rel }) := by
    refine foldl_induction _ (Pass2Inv s1) im _ (pass2Inv_fileNodes rel hinv) ?_
    intro st'' m _ hinv''
    exact addImportEdge_pass2Inv hinv''
  refine foldl_induction _ (Pass2Inv s1) cm _ him ?_
  intro st' c _ hinv'
  dsimp only
  split
  · exact hinv'
  · split
    · rename_i caller hfound
      have hmem := findCaller_mem c.1 _ caller hfound
      obtain ⟨st₀, en₀, hmem⟩ := hmem
      have hmem' := mem_sortAscByKey _ _ _ hmem
      have hfl := List.mem_filter.mp hmem'
      have hkw : (st₀, en₀, caller).2.2 ∉ keywordStoplist := by
        have := hfl.2
        simpa using this
      exact addFunctionCallEdge_pass2Inv (hreg (st₀, en₀, caller) hfl.1 hkw) hinv'
    · exact hinv'

theorem analyzeRepository_pass2Inv (repo : List RepoFile) :
    Pass2Inv (collectPass repo) (analyzeRepository repo) := by
  unfold analyzeRepository
  refine foldl_induction _ (Pass2Inv (collectPass repo)) repo (collectPass repo)
    ⟨rfl, collectPass_pass1Inv repo, ?_⟩ ?_
  · intro e he
    rw [collectPass_functionEdges repo] at he
    simp at he
  · intro st f hf hinv'
    cases f with
    | python rel tree =>
        refine analyzePythonFile_pass2Inv ?_ hinv'
        intro nm ln body hmem
        refine collectPass_registered repo initState (RepoFile.python rel tree) hf
          nm (rel ++ "::" ++ nm) ?_
        simp only [collectedPairs, List.mem_filterMap]
        exact ⟨PyNode.functionDef nm ln body, hmem, rfl⟩
    | generic rel fm cm im =>
        refine analyzeGenericFile_pass2Inv ?_ hinv'
        intro m hm hkw
        refine collectPass_registered repo initState (RepoFile.generic rel fm cm im)
          hf m.2.2 (rel ++ "::" ++ m.2.2) ?_
        simp only [collectedPairs, List.mem_map]
        refine ⟨m, List.mem_filter.mpr ⟨hm, by simpa using hkw⟩, rfl⟩

/-- **C3** (confirmed).  After the two-pass analysis: the SymbolIndex is
exactly what Pass 1 built (Pass 2 never touches it), and every CallGraph
edge endpoint — caller and callee — is a qualified name registered in that
Pass-1 SymbolIndex; no call edge references a symbol unknown to it. -/
theorem C3_callGraph_endpoints_in_symbolIndex (repo : List RepoFile) :
    (analyzeRepository repo).index = (collectPass repo).index ∧
      ∀ e ∈ (analyzeRepository repo).functionEdges,
        RegisteredIdx (collectPass repo).index e.1 ∧
          RegisteredIdx (collectPass repo).index e.2.1 :=
  ⟨(analyzeRepository_pass2Inv repo).1, (analyzeRepository_pass2Inv repo).2.2⟩

/-- The two-file repository of the spec's end-to-end scenario: `a.py`
defines `foo` which calls `bar`, and `b.py` defines `bar`. -/
def repoC3 : List RepoFile :=
  [RepoFile.python "a.py" [PyNode.functionDef "foo" 1 [PyNode.callName "bar" []]],
   RepoFile.python "b.py" [PyNode.functionDef "bar" 1 []]]

/-- **C3 witness.**  In the two-file scenario the analysis produces the
edge `a.py::foo → b.py::bar`, and both endpoints are registered in the
Pass-1 SymbolIndex. -/
theorem C3_witness :
    RegisteredIdx (collectPass repoC3).index ("a.py::foo", "b.py::bar",
      (none : Option ℚ)).1 ∧
      RegisteredIdx (collectPass repoC3).index ("a.py::foo", "b.py::bar",
        (none : Option ℚ)).2.1 :=
  (C3_callGraph_endpoints_in_symbolIndex repoC3).2
    ("a.py::foo", "b.py::bar", none) (by decide)

/-- A qualified name *originates* from the repository's Pass-1 collection:
some file contributes it, either as a Python `ast.FunctionDef` (never an
`ast.AsyncFunctionDef`) or as a non-keyword generic regex match. -/
def originates (repo : List RepoFile) (n : String) : Prop :=
  ∃ f ∈ repo, ∃ p ∈ collectedPairs f, p.2 = n

theorem collectPass_index_origin (repo : List RepoFile) :
    ∀ k l, lookupIdx (collectPass repo).index k = some l → ∀ v ∈ l,
      originates repo v := by
  unfold collectPass
  refine foldl_induction _
    (fun (st : AnalyzerState) => ∀ k l, lookupIdx st.index k = some l → ∀ v ∈ l,
      originates repo v)
    repo initState ?_ ?_
  · intro k l hl
    simp [initState, lookupIdx] at hl
  · intro s' f hf hs'
    cases f with
    | python rel tree =>
        unfold collectFile collectPythonFunctions
        refine foldl_induction _
          (fun (st : AnalyzerState) => ∀ k l, lookupIdx st.index k = some l →
            ∀ v ∈ l, originates repo v)
          (pyWalk tree) s' hs' ?_
        intro st nd hnd hst k l hl v hv
        cases nd with
        | functionDef name ln body =>
            rw [lookupIdx_indexAppend] at hl
            by_cases hk : k = name
            · rw [if_pos hk] at hl
              cases hl
              rcases List.mem_append.mp hv with h | h
              · cases holo : lookupIdx st.index name with
                | none => rw [holo] at h; simp at h
                | some l₀ =>
                    rw [holo] at h
                    exact hst name l₀ holo v h
              · simp only [List.mem_singleton] at h
                subst h
                refine ⟨RepoFile.python rel tree, hf,
                  (name, rel ++ "::" ++ name), ?_, rfl⟩
                simp only [collectedPairs, List.mem_filterMap]
                exact ⟨PyNode.functionDef name ln body, hnd, rfl⟩
            · rw [if_neg hk] at hl
              exact hst k l hl v hv
        | asyncFunctionDef a b c => exact hst k l hl v hv
        | classDef a b c => exact hst k l hl v hv
        | importStmt a => exact hst k l hl v hv
        | importFrom a => exact hst k l hl v hv
        | callName a b => exact hst k l hl v hv
        | other a => exact hst k l hl v hv
    | generic rel fm cm im =>
        unfold collectFile collectGenericFunctions
        refine foldl_induction _
          (fun (st : AnalyzerState) => ∀ k l, lookupIdx st.index k = some l →
            ∀ v ∈ l, originates repo v)
          fm s' hs' ?_
        intro st m hm hst k l hl v hv
        revert hl
        split
        · intro hl
          exact hst k l hl v hv
        · rename_i hkw
          intro hl
          rw [lookupIdx_indexAppend] at hl
          by_cases hk : k = m.2.2
          · rw [if_pos hk] at hl
            cases hl
            rcases List.mem_append.mp hv with h | h
            · cases holo : lookupIdx st.index m.2.2 with
              | none => rw [holo] at h; simp at h
              | some l₀ =>
                  rw [holo] at h
                  exact hst m.2.2 l₀ holo v h
            · simp only [List.mem_singleton] at h
              subst h
              refine ⟨RepoFile.generic rel fm cm im, hf,
                (m.2.2, rel ++ "::" ++ m.2.2), ?_, rfl⟩
              simp only [collectedPairs, List.mem_map]
              exact ⟨m, List.mem_filter.mpr ⟨hm, by simpa using hkw⟩, rfl⟩
          · rw [if_neg hk] at hl
            exact hst k l hl v hv

theorem registered_originates (repo : List RepoFile) (n : String)
    (h : RegisteredIdx (collectPass repo).index n) : originates repo n := by
  obtain ⟨k, l, hl, hn⟩ := h
  exact collectPass_index_origin repo k l hl n hn

/-- **C10** (confirmed).  Pass 1 collects only synchronous
`ast.FunctionDef` definitions (and generic regex matches): a qualified
name that no file contributes that way — in particular the name of a
function defined only by `async def`, since `ast.AsyncFunctionDef` is not
an `ast.FunctionDef` and matches neither collection case — never appears
as a CallGraph node, never appears in any SymbolIndex entry, and is never
the caller of any CallGraph edge. -/
theorem C10_async_defs_never_collected (repo : List RepoFile) (n : String)
    (h : ¬ originates repo n) :
    n ∉ (analyzeRepository repo).functionNodes ∧
      (∀ k l, lookupIdx (analyzeRepository repo).index k = some l → n ∉ l) ∧
      (∀ e ∈ (analyzeRepository repo).functionEdges, e.1 ≠ n) := by
  have hinv := analyzeRepository_pass2Inv repo
  refine ⟨?_, ?_, ?_⟩
  · intro hn
    exact h (registered_originates repo n (hinv.2.1 n hn))
  · intro k l hl hn
    rw [hinv.1] at hl
    exact h (registered_originates repo n ⟨k, l, hl, hn⟩)
  · intro e he hcaller
    exact h (registered_originates repo n (hcaller ▸ (hinv.2.2 e he).1))

/-- A one-file repository whose only definition is
`async def handler(): fetch()` (the parse of that file). -/
def repoC10 : List RepoFile :=
  [RepoFile.python "srv.py"
    [PyNode.asyncFunctionDef "handler" 1 [PyNode.callName "fetch" []]]]

/-- **C10 witness.**  The async function's qualified name `srv.py::handler`
originates from no Pass-1 collection case, so after the analysis it is not
a CallGraph node, not in any SymbolIndex entry, and not a caller. -/
theorem C10_witness :
    "srv.py::handler" ∉ (analyzeRepository repoC10).functionNodes ∧
      (∀ k l, lookupIdx (analyzeRepository repoC10).index k = some l →
        "srv.py::handler" ∉ l) ∧
      (∀ e ∈ (analyzeRepository repoC10).functionEdges, e.1 ≠ "srv.py::handler") :=
  C10_async_defs_never_collected repoC10 "srv.py::handler"
    (by unfold originates; decide)

/-! ## Claims C4 and C5: the Relevance Ranker queries -/

/-- The strict code-file filter of `get_file_pagerank`. -/
def codeExtensions : List String :=
  [".py", ".js", ".jsx", ".ts", ".tsx", ".java", ".cpp", ".c", ".h", ".hpp", ".swift"]

/-- The file filter of `get_hub_files` / `get_authority_files`. -/
def hubFileExtensions : List String :=
  [".py", ".js", ".ts", ".jsx", ".tsx", ".java", ".cpp", ".c", ".h", ".go", ".rs",
   ".md", ".txt"]

/-- The fallback known-module stoplist of `get_hub_files` /
`get_authority_files`. -/
def knownModules : List String :=
  ["os", "sys", "re", "json", "ast", "pathlib", "collections", "numpy", "pandas"]

/-- Python `'/' in node`. -/
def containsSlash (s : String) : Bool := s.data.any (fun c => c = '/')

/-- `get_file_pagerank`: empty graph → `[]`; any exception from
`nx.pagerank` is caught → `[]`; the scores are filtered to names ending in
a code extension (→ `[]` when nothing survives) and sorted descending.
`pr` is the `nx.pagerank(graph, alpha=0.85)` oracle; an uncaught Python
exception would be `Except.error`. -/
def getFilePagerank
    (pr : List String × List (String × String) → Except String (List (String × ℚ)))
    (s : AnalyzerState) : Except String (List (String × ℚ)) :=
  if s.fileNodes.length = 0 then .ok []
  else
    match pr (s.fileNodes, s.fileEdges) with
    | .error _ => .ok []
    | .ok pagerank =>
        let filePagerank :=
          pagerank.filter (fun p => codeExtensions.any (fun ext => endsWithStr p.1 ext))
        if filePagerank.isEmpty then .ok []
        else .ok (sortDescByKey (fun p : String × ℚ => p.2) filePagerank)

/-- `get_function_pagerank`: empty graph → `[]`; **edgeless graph → the
uniform distribution `1/N` per node, computed directly without invoking
the PageRank oracle**; otherwise the oracle's scores sorted descending,
with any exception caught → `[]`. -/
def getFunctionPagerank
    (pr : List String × List (String × String × Option ℚ) →
      Except String (List (String × ℚ)))
    (s : AnalyzerState) : Except String (List (String × ℚ)) :=
  if s.functionNodes.length = 0 then .ok []
  else if s.functionEdges.length = 0 then
    .ok (s.functionNodes.map (fun node => (node, (1 : ℚ) / s.functionNodes.length)))
  else
    match pr (s.functionNodes, s.functionEdges) with
    | .error _ => .ok []
    | .ok pagerank => .ok (sortDescByKey (fun p : String × ℚ => p.2) pagerank)

/-- `get_import_pagerank`: empty graph → `[]`; oracle exception caught →
`[]`; otherwise sorted scores. -/
def getImportPagerank
    (pr : List String × List (String × String) → Except String (List (String × ℚ)))
    (s : AnalyzerState) : Except String (List (String × ℚ)) :=
  if s.importNodes.length = 0 then .ok []
  else
    match pr (s.importNodes, s.importEdges) with
    | .error _ => .ok []
    | .ok pagerank => .ok (sortDescByKey (fun p : String × ℚ => p.2) pagerank)

/-- Out-degree of a node in the file graph (`file_graph.out_degree()`). -/
def outDegree (s : AnalyzerState) (node : String) : Nat :=
  (s.fileEdges.filter (fun e => e.1 = node)).length

/-- In-degree of a node in the file graph (`file_graph.in_degree()`). -/
def inDegree (s : AnalyzerState) (node : String) : Nat :=
  (s.fileEdges.filter (fun e => e.2 = node)).length

/-- `get_hub_files(top_n)`: rank files by out-degree, keeping nodes that
look like file paths (recognized extension or a `/`), falling back to the
known-module stoplist when that filter empties the set, dropping degree-0
entries, sorted descending, top `n`. -/
def getHubFiles (n : Nat) (s : AnalyzerState) : Except String (List (String × Nat)) :=
  if s.fileNodes.length = 0 then .ok []
  else
    let outDeg := s.fileNodes.map (fun node => (node, outDegree s node))
    let filtered := outDeg.filter
      (fun p => (hubFileExtensions.any (fun ext => endsWithStr p.1 ext)) ||
        containsSlash p.1)
    let filtered' := if filtered.isEmpty then
        outDeg.filter (fun p => p.1 ∉ knownModules)
      else filtered
    let results := filtered'.filter (fun p => 0 < p.2)
    .ok ((sortDescByKey (fun p : String × Nat => p.2) results).take n)

/-- `get_authority_files(top_n)`: as `get_hub_files` but by in-degree. -/
def getAuthorityFiles (n : Nat) (s : AnalyzerState) :
    Except String (List (String × Nat)) :=
  if s.fileNodes.length = 0 then .ok []
  else
    let inDeg := s.fileNodes.map (fun node => (node, inDegree s node))
    let filtered := inDeg.filter
      (fun p => (hubFileExtensions.any (fun ext => endsWithStr p.1 ext)) ||
        containsSlash p.1)
    let filtered' := if filtered.isEmpty then
        inDeg.filter (fun p => p.1 ∉ knownModules)
      else filtered
    let results := filtered'.filter (fun p => 0 < p.2)
    .ok ((sortDescByKey (fun p : String × Nat => p.2) results).take n)

/-- `get_central_functions(top_n)`: empty or edgeless graph → `[]`;
betweenness-centrality oracle exception caught → `[]`; otherwise sorted
scores, top `n`. -/
def getCentralFunctions
    (bc : List String × List (String × String × Option ℚ) →
      Except String (List (String × ℚ)))
    (n : Nat) (s : AnalyzerState) : Except String (List (String × ℚ)) :=
  if s.functionNodes.length = 0 then .ok []
  else if s.functionEdges.length = 0 then .ok []
  else
    match bc (s.functionNodes, s.functionEdges) with
    | .error _ => .ok []
    | .ok centrality => .ok ((sortDescByKey (fun p : String × ℚ => p.2) centrality).take n)

/-- **C4** (confirmed).  On a CallGraph with at least one node and zero
edges, `get_function_pagerank` returns exactly the node list paired with
the uniform score `1/N` (exact in `ℚ`; the Python value `1.0/n` is the
floating-point image of this rational): one entry per node, `N` entries in
all, scores summing to `1`, and the result is independent of the PageRank
oracle — the algorithm is never invoked. -/
theorem C4_edgeless_uniform_pagerank (s : AnalyzerState)
    (pr pr' : List String × List (String × String × Option ℚ) →
      Except String (List (String × ℚ)))
    (hn : s.functionNodes ≠ []) (he : s.functionEdges = []) :
    getFunctionPagerank pr s =
        .ok (s.functionNodes.map
          (fun node => (node, (1 : ℚ) / s.functionNodes.length))) ∧
      getFunctionPagerank pr s = getFunctionPagerank pr' s ∧
      (s.functionNodes.map
        (fun node => (node, (1 : ℚ) / s.functionNodes.length))).length =
        s.functionNodes.length ∧
      ((s.functionNodes.map
        (fun node => (node, (1 : ℚ) / s.functionNodes.length))).map Prod.snd).sum
        = 1 := by
  have hlen : s.functionNodes.length ≠ 0 := by
    intro h
    exact hn (List.length_eq_zero.mp h)
  have hedges : s.functionEdges.length = 0 := by rw [he]; rfl
  have huni : ∀ (q : List String × List (String × String × Option ℚ) →
      Except String (List (String × ℚ))),
      getFunctionPagerank q s =
        .ok (s.functionNodes.map
          (fun node => (node, (1 : ℚ) / s.functionNodes.length))) := by
    intro q
    unfold getFunctionPagerank
    rw [if_neg hlen, if_pos hedges]
  refine ⟨huni pr, (huni pr).trans (huni pr').symm, by simp, ?_⟩
  have hmap : ((s.functionNodes.map
      (fun node => (node, (1 : ℚ) / s.functionNodes.length))).map Prod.snd) =
      List.replicate s.functionNodes.length ((1 : ℚ) / s.functionNodes.length) := by
    rw [List.map_map]
    have : (Prod.snd ∘ fun node : String =>
        (node, (1 : ℚ) / s.functionNodes.length)) =
        (fun _ : String => (1 : ℚ) / s.functionNodes.length) := rfl
    rw [this, List.map_const']
  rw [hmap, List.sum_replicate, nsmul_eq_mul]
  rw [mul_one_div, div_self]
  exact Nat.cast_ne_zero.mpr hlen

/-- A two-node, zero-edge analyzer state. -/
def sC4 : AnalyzerState := { initState with functionNodes := ["a.py::f", "b.py::g"] }

/-- **C4 witness.**  At the concrete edgeless two-node graph the query
yields exactly the two uniform entries `1/2`, oracle-independently. -/
theorem C4_witness :
    getFunctionPagerank (fun _ => .error "non-convergence") sC4 =
        .ok (sC4.functionNodes.map
          (fun node => (node, (1 : ℚ) / sC4.functionNodes.length))) ∧
      getFunctionPagerank (fun _ => .error "non-convergence") sC4 =
        getFunctionPagerank (fun _ => .ok []) sC4 ∧
      (sC4.functionNodes.map
        (fun node => (node, (1 : ℚ) / sC4.functionNodes.length))).length =
        sC4.functionNodes.length ∧
      ((sC4.functionNodes.map
        (fun node => (node, (1 : ℚ) / sC4.functionNodes.length))).map Prod.snd).sum
        = 1 :=
  C4_edgeless_uniform_pagerank sC4 _ _ (by decide) (by decide)

/-- **C5** (confirmed).  Every ranking query — file PageRank, function
PageRank, module PageRank, hub files, authority files, central functions —
returns a well-typed (possibly empty) list for *every* graph state and
*every* behaviour of the library algorithm, including the degenerate and
error cases: no query ever propagates an exception past its boundary
(`Except.error` is unreachable), and a raising oracle degrades the three
oracle-guarded PageRank/centrality queries to `ok []`. -/
theorem C5_ranking_queries_total (s : AnalyzerState) (n : Nat)
    (prF prI : List String × List (String × String) → Except String (List (String × ℚ)))
    (prFn bc : List String × List (String × String × Option ℚ) →
      Except String (List (String × ℚ)))
    (msg : String) :
    (∃ l, getFilePagerank prF s = .ok l) ∧
      (∃ l, getFunctionPagerank prFn s = .ok l) ∧
      (∃ l, getImportPagerank prI s = .ok l) ∧
      (∃ l, getHubFiles n s = .ok l) ∧
      (∃ l, getAuthorityFiles n s = .ok l) ∧
      (∃ l, getCentralFunctions bc n s = .ok l) ∧
      getFilePagerank (fun _ => .error msg) s = .ok [] ∧
      getImportPagerank (fun _ => .error msg) s = .ok [] ∧
      getCentralFunctions (fun _ => .error msg) n s = .ok [] := by
  refine ⟨?_, ?_, ?_, ?_, ?_, ?_, ?_, ?_, ?_⟩
  · unfold getFilePagerank
    split
    · exact ⟨[], rfl⟩
    · split
      · exact ⟨[], rfl⟩
      · dsimp only
        split
        · exact ⟨[], rfl⟩
        · exact ⟨_, rfl⟩
  · unfold getFunctionPagerank
    split
    · exact ⟨[], rfl⟩
    · split
      · exact ⟨_, rfl⟩
      · split
        · exact ⟨[], rfl⟩
        · exact ⟨_, rfl⟩
  · unfold getImportPagerank
    split
    · exact ⟨[], rfl⟩
    · split
      · exact ⟨[], rfl⟩
      · exact ⟨_, rfl⟩
  · unfold getHubFiles
    split
    · exact ⟨[], rfl⟩
    · exact ⟨_, rfl⟩
  · unfold getAuthorityFiles
    split
    · exact ⟨[], rfl⟩
    · exact ⟨_, rfl⟩
  · unfold getCentralFunctions
    split
    · exact ⟨[], rfl⟩
    · split
      · exact ⟨[], rfl⟩
      · split
        · exact ⟨[], rfl⟩
        · exact ⟨_, rfl⟩
  · unfold getFilePagerank
    split
    · rfl
    · rfl
  · unfold getImportPagerank
    split
    · rfl
    · rfl
  · unfold getCentralFunctions
    split
    · rfl
    · split
      · rfl
      · rfl

/-! ## Claim C6: the control-flow-keyword stoplist -/

theorem string_append_cancel_left (a b c : String) (h : a ++ b = a ++ c) : b = c := by
  have hd : a.data ++ b.data = a.data ++ c.data := by
    rw [← String.data_append, ← String.data_append, h]
  have h2 := List.append_cancel_left hd
  cases b; cases c
  exact congrArg String.mk h2

/-- **C6 — what does hold** (see the counterexample for what does not).
The analyzer's generic collection pass (`_collect_generic_functions`)
never emits a control-flow keyword: for any regex-match list and any of
the six keywords, the SymbolIndex entry for that keyword is untouched and
the keyword's qualified name never becomes a call-graph node. -/
theorem C6_collect_generic_excludes_keywords (s : AnalyzerState) (rel : String)
    (fm : List (Nat × Nat × String)) (kw : String) (hkw : kw ∈ keywordStoplist) :
    lookupIdx (collectGenericFunctions s rel fm).index kw = lookupIdx s.index kw ∧
      ((rel ++ "::" ++ kw) ∉ s.functionNodes →
        (rel ++ "::" ++ kw) ∉ (collectGenericFunctions s rel fm).functionNodes) := by
  unfold collectGenericFunctions
  refine foldl_induction _
    (fun (st : AnalyzerState) =>
      lookupIdx st.index kw = lookupIdx s.index kw ∧
        ((rel ++ "::" ++ kw) ∉ s.functionNodes →
          (rel ++ "::" ++ kw) ∉ st.functionNodes))
    fm s ⟨rfl, fun h => h⟩ ?_
  intro st m _ hst
  dsimp only
  split
  · exact hst
  · rename_i hnotkw
    have hne : m.2.2 ≠ kw := by
      intro h
      exact hnotkw (h ▸ hkw)
    constructor
    · rw [lookupIdx_indexAppend, if_neg (fun h : kw = m.2.2 => hne h.symm)]
      exact hst.1
    · intro hno hmem
      rcases mem_addIfAbsent _ _ _ hmem with h | h
      · exact hst.2 hno h
      · exact hne (string_append_cancel_left (rel ++ "::") _ _ h).symm

/-- Python `\w` on the ASCII characters that occur in the inputs here. -/
def isWordChar (c : Char) : Bool := c.isAlphanum || c = '_'

/-- Python `\s`: `[ \t\n\r\f\v]`. -/
def isRegexSpace (c : Char) : Bool :=
  c = ' ' || c = '\t' || c = '\n' || c = '\x0d' || c = '\x0c' || c = '\x0b'

/-- The suffix `\s+(\w+)\s*\([^)]*\)\s*(?:const\s*)?\{` of `_parse_cpp`'s
function regex, tried at `cs'`; returns the captured group and the
remainder after the match.  Every quantifier here is over a character
class disjoint from what follows it, so greedy maximal munch with the one
explicit fallback for the optional `const` is exactly the regex
semantics. -/
def cppTail (csq : List Char) : Option (String × List Char) :=
  match csq with
  | [] => none
  | c :: _ =>
      if isRegexSpace c then
        let cs3 := csq.dropWhile isRegexSpace
        let nm := cs3.takeWhile isWordChar
        if nm.isEmpty then none
        else
          match (cs3.dropWhile isWordChar).dropWhile isRegexSpace with
          | '(' :: cs6 =>
              match cs6.dropWhile (fun ch => ¬ (ch = ')')) with
              | ')' :: cs8 =>
                  let cs9 := cs8.dropWhile isRegexSpace
                  if cs9.take 5 = ['c', 'o', 'n', 's', 't'] then
                    match (cs9.drop 5).dropWhile isRegexSpace with
                    | '{' :: r => some (String.mk nm, r)
                    | _ =>
                        match cs9 with
                        | '{' :: r => some (String.mk nm, r)
                        | _ => none
                  else
                    match cs9 with
                    | '{' :: r => some (String.mk nm, r)
                    | _ => none
              | _ => none
          | _ => none
      else none

/-- The optional pointer/reference group `(?:\s*\*|\s*&)?` followed by the
tail; on failure the regex engine backtracks to the empty group. -/
def cppPtrPath (cs1 : List Char) : Option (String × List Char) :=
  match cs1.dropWhile isRegexSpace with
  | c :: r => if c = '*' ∨ c = '&' then cppTail r else none
  | [] => none

/-- One attempt of `_parse_cpp`'s function pattern
`(?:\w+(?:\s*\*|\s*&)?)\s+(\w+)\s*\([^)]*\)\s*(?:const\s*)?\{` at the head
of `cs`. -/
def matchCppAt (cs : List Char) : Option (String × List Char) :=
  if (cs.takeWhile isWordChar).isEmpty then none
  else
    let cs1 := cs.dropWhile isWordChar
    match cppPtrPath cs1 with
    | some res => some res
    | none => cppTail cs1

/-- `re.finditer` scanning: try the pattern at every position left to
right, resuming after each (non-empty) match.  The fuel equals the initial
length; a successful match always consumes at least one character and the
remainder is a suffix, so the fuel never runs out before the scan ends. -/
def cppFinditerF : Nat → List Char → List String
  | 0, _ => []
  | _ + 1, [] => []
  | fuel + 1, c :: rest =>
      match matchCppAt (c :: rest) with
      | some (name, restAfter) => name :: cppFinditerF fuel restAfter
      | none => cppFinditerF fuel rest

/-- All group-1 captures of `_parse_cpp`'s function pattern over the file
content. -/
def cppFinditer (cs : List Char) : List String := cppFinditerF cs.length cs

/-- The function-name extraction of `_parse_cpp`
(`rag_101/retriever.py`): every regex capture whose name is not in the
parser's *four-keyword* filter `['if', 'while', 'for', 'switch']`. -/
def parseCppFunctionNames (content : String) : List String :=
  (cppFinditer content.data).filter
    (fun nm => nm ∉ (["if", "while", "for", "switch"] : List String))

/-- **C6 counterexample.**  `_parse_cpp` filters only four of the six
control-flow keywords: on the one-line C++ file `// try catch (E e) { }`
its function pattern captures `catch`, the four-keyword filter lets it
through, and the parser emits the control-flow keyword `catch` as a
function name — refuting the claim that heuristic extraction never emits
any of the six keywords in any supported non-Python language. -/
theorem C6_counterexample :
    "catch" ∈ parseCppFunctionNames "// try catch (E e) { }" ∧
      "catch" ∈ keywordStoplist := by
  decide

/-- **C6 witness.**  The positive half applied concretely: collecting a
generic file whose matches include the keyword `catch` leaves the index
entry for `catch` untouched and adds no `catch` node. -/
theorem C6_witness :
    lookupIdx (collectGenericFunctions initState "f.cc"
        [(0, 5, "catch"), (10, 16, "update")]).index "catch" =
      lookupIdx initState.index "catch" ∧
      (("f.cc" ++ "::" ++ "catch") ∉ initState.functionNodes →
        ("f.cc" ++ "::" ++ "catch") ∉
          (collectGenericFunctions initState "f.cc"
            [(0, 5, "catch"), (10, 16, "update")]).functionNodes) :=
  C6_collect_generic_excludes_keywords initState "f.cc"
    [(0, 5, "catch"), (10, 16, "update")] "catch" (by decide)

/-! ## Claim C7: the Structural Extractor's FunctionRecords -/

/-- A Python file as the Structural Extractor sees it: its
repository-relative path, its parsed body, and its line count. -/
structure PyFile where
  path : String
  tree : List PyNode
  lineCount : Nat

/-- A FunctionRecord as `generate_repo_ast` emits it (the fields the claim
concerns; `args`/`docstring` carry no constraint here). -/
structure FuncRecord where
  name : String
  file : String
  line : Nat
  isAsync : Bool
deriving DecidableEq, Repr

/-- The per-file function records of `generate_repo_ast`'s Python branch:
every `ast.FunctionDef` **or** `ast.AsyncFunctionDef` met by `ast.walk`
yields a record with the node's name and 1-based line number. -/
def pyFunctionRecords (rel : String) (tree : List PyNode) : List FuncRecord :=
  (pyWalk tree).filterMap (fun n =>
    match n with
    | .functionDef nm ln _ => some ⟨nm, rel, ln, false⟩
    | .asyncFunctionDef nm ln _ => some ⟨nm, rel, ln, true⟩
    | _ => none)

/-- The repository-wide flattened function list of `generate_repo_ast`
(Python files; files are visited in traversal order and each file's
records are appended in walk order). -/
def generateRepoFunctions (files : List PyFile) : List FuncRecord :=
  files.flatMap (fun f => pyFunctionRecords f.path f.tree)

/-- The qualified name `file-path :: local-name` of a record. -/
def FuncRecord.qualified (r : FuncRecord) : String := r.file ++ "::" ++ r.name

theorem pyFunctionRecords_file (rel : String) (tree : List PyNode)
    (r : FuncRecord) (hr : r ∈ pyFunctionRecords rel tree) : r.file = rel := by
  unfold pyFunctionRecords at hr
  obtain ⟨nd, _, hmatch⟩ := List.mem_filterMap.mp hr
  cases nd with
  | functionDef a b c => cases Option.some.inj hmatch; rfl
  | asyncFunctionDef a b c => cases Option.some.inj hmatch; rfl
  | classDef a b c => exact absurd hmatch (by simp)
  | importStmt a => exact absurd hmatch (by simp)
  | importFrom a => exact absurd hmatch (by simp)
  | callName a b => exact absurd hmatch (by simp)
  | other a => exact absurd hmatch (by simp)

/-- The 1-based line numbers of all (sync or async) function definitions
met by the walk — exactly the `lineno` values CPython's parser attached. -/
def defLines (tree : List PyNode) : List Nat :=
  (pyWalk tree).filterMap (fun n =>
    match n with
    | .functionDef _ ln _ => some ln
    | .asyncFunctionDef _ ln _ => some ln
    | _ => none)

theorem pyFunctionRecords_line (rel : String) (tree : List PyNode)
    (r : FuncRecord) (hr : r ∈ pyFunctionRecords rel tree) : r.line ∈ defLines tree := by
  unfold pyFunctionRecords at hr
  obtain ⟨nd, hnd, hmatch⟩ := List.mem_filterMap.mp hr
  unfold defLines
  rw [List.mem_filterMap]
  cases nd with
  | functionDef a b c =>
      cases Option.some.inj hmatch
      exact ⟨PyNode.functionDef a b c, hnd, rfl⟩
  | asyncFunctionDef a b c =>
      cases Option.some.inj hmatch
      exact ⟨PyNode.asyncFunctionDef a b c, hnd, rfl⟩
  | classDef a b c => exact absurd hmatch (by simp)
  | importStmt a => exact absurd hmatch (by simp)
  | importFrom a => exact absurd hmatch (by simp)
  | callName a b => exact absurd hmatch (by simp)
  | other a => exact absurd hmatch (by simp)

/-- **C7** (corrected).  The claim's two halves fare differently.  *Line
numbers*: assuming only the parser's guarantee that every definition's
`lineno` lies within `[1, file line count]` (CPython's invariant for a
syntactically valid file), every emitted FunctionRecord's line lies in
that range for its file.  *Uniqueness*: the qualified name is **not**
unique in general (see the counterexample — a method and a top-level
function with the same local name in one file collide); uniqueness holds
under the additional hypothesis that within each file all walked
definitions have pairwise-distinct local names (and file paths are
distinct), stated here on the `(file, local-name)` pairs that constitute
the qualified identity. -/
theorem C7_line_bounds_and_conditional_uniqueness (files : List PyFile)
    (hwf : ∀ f ∈ files, ∀ ln ∈ defLines f.tree, 1 ≤ ln ∧ ln ≤ f.lineCount)
    (hpaths : (files.map PyFile.path).Nodup)
    (hnames : ∀ f ∈ files,
      ((pyFunctionRecords f.path f.tree).map FuncRecord.name).Nodup) :
    (∀ r ∈ generateRepoFunctions files,
      1 ≤ r.line ∧ ∃ f ∈ files, r.file = f.path ∧ r.line ≤ f.lineCount) ∧
      ((generateRepoFunctions files).map (fun r => (r.file, r.name))).Nodup := by
  constructor
  · intro r hr
    obtain ⟨f, hf, hrf⟩ := List.mem_flatMap.mp hr
    have hline := pyFunctionRecords_line f.path f.tree r hrf
    have hb := hwf f hf r.line hline
    exact ⟨hb.1, f, hf, pyFunctionRecords_file f.path f.tree r hrf, hb.2⟩
  · unfold generateRepoFunctions
    rw [List.map_flatMap]
    rw [List.nodup_flatMap]
    constructor
    · intro f hf
      have heq : (pyFunctionRecords f.path f.tree).map (fun r => (r.file, r.name)) =
          ((pyFunctionRecords f.path f.tree).map FuncRecord.name).map
            (fun nm => (f.path, nm)) := by
        rw [List.map_map]
        refine List.map_congr_left ?_
        intro r hr
        simp only [Function.comp_apply]
        rw [pyFunctionRecords_file f.path f.tree r hr]
      rw [heq]
      refine List.Nodup.map ?_ (hnames f hf)
      intro a b hab
      exact congrArg Prod.snd hab
    · have hp : List.Pairwise (fun f g : PyFile => f.path ≠ g.path) files := by
        have := hpaths
        rw [List.nodup_iff_injective_get] at this
        rw [← List.pairwise_map (f := PyFile.path) (R := (· ≠ ·))]
        exact hpaths
      refine hp.imp ?_
      intro f g hfg x hxf hxg
      obtain ⟨rf, hrf, hxf'⟩ := List.mem_map.mp hxf
      obtain ⟨rg, hrg, hxg'⟩ := List.mem_map.mp hxg
      have h1 : x.1 = f.path := by
        rw [← hxf']
        exact pyFunctionRecords_file f.path f.tree rf hrf
      have h2 : x.1 = g.path := by
        rw [← hxg']
        exact pyFunctionRecords_file g.path g.tree rg hrg
      exact hfg (h1 ▸ h2)

/-- The parse of the four-line file
`def foo(): pass` / `class A:` / `    def foo(self): pass` / (blank):
a top-level function and a same-named method. -/
def fileC7 : PyFile :=
  ⟨"a.py",
   [PyNode.functionDef "foo" 1 [],
    PyNode.classDef "A" 2 [PyNode.functionDef "foo" 3 []]],
   4⟩

/-- **C7 counterexample.**  For this syntactically valid Python file every
emitted record's line is within `[1, 4]`, yet the emitted qualified names
are `a.py::foo` twice — the qualified name is *not* unique in the
repository-wide function list, refuting the claim's uniqueness half. -/
theorem C7_counterexample :
    (∀ r ∈ generateRepoFunctions [fileC7], 1 ≤ r.line ∧ r.line ≤ fileC7.lineCount) ∧
      (generateRepoFunctions [fileC7]).map FuncRecord.qualified =
        ["a.py::foo", "a.py::foo"] ∧
      ¬ ((generateRepoFunctions [fileC7]).map FuncRecord.qualified).Nodup := by
  refine ⟨?_, by decide, by decide⟩
  intro r hr
  fin_cases hr <;> exact ⟨by decide, by decide⟩

/-- A one-file repository with two distinctly named definitions. -/
def fileC7w : PyFile :=
  ⟨"a.py", [PyNode.functionDef "foo" 1 [], PyNode.functionDef "bar" 2 []], 3⟩

/-- **C7 witness.**  The amended statement at a concrete repository with
distinct local names: lines are in range and the pairs are unique. -/
theorem C7_witness :
    (∀ r ∈ generateRepoFunctions [fileC7w],
      1 ≤ r.line ∧ ∃ f ∈ [fileC7w], r.file = f.path ∧ r.line ≤ f.lineCount) ∧
      ((generateRepoFunctions [fileC7w]).map (fun r => (r.file, r.name))).Nodup :=
  C7_line_bounds_and_conditional_uniqueness [fileC7w]
    (by decide) (by decide) (by decide)

/-! ## Claims C8 and C9: the Fragment Locator (`snippet_extractor.py`) -/

/-- Python `line.rstrip()` (default whitespace; the ASCII whitespace set
suffices for the characters handled here). -/
def rstripL (l : List Char) : List Char := (l.reverse.dropWhile isRegexSpace).reverse

/-- Python `not line.strip()`: the line is empty or all whitespace. -/
def isBlankL (l : List Char) : Bool := l.all isRegexSpace

/-- Python `code.split('\n')` (note `"".split('\n') == ['']`). -/
def splitLinesL : List Char → List (List Char)
  | [] => [[]]
  | c :: rest =>
      match splitLinesL rest with
      | h :: t => if c = '\n' then [] :: h :: t else (c :: h) :: t
      | [] => [[c]]

/-- Lines joined with `'\n'` (Python `'\n'.join(lines)`). -/
def joinLinesL : List (List Char) → List Char
  | [] => []
  | [l] => l
  | l :: rest => l ++ '\n' :: joinLinesL rest

/-- Greedy `\s*` that records whether the last consumed character was a
newline (to know whether the position after a substitution is a
`re.MULTILINE` line start). -/
def dropSpacesTrack : List Char → Bool → Bool × List Char
  | [], last => (last, [])
  | c :: rest, last =>
      if isRegexSpace c then dropSpacesTrack rest (c = '\n') else (last, c :: rest)

/-- One attempt of the line-number-decoration pattern `^\s*\d+\s*\|\s*` of
`normalize_code` (each quantifier's class is disjoint from its successor,
so greedy matching is exact); returns whether the match ended just after a
newline, and the remainder. -/
def matchDecor (cs : List Char) : Option (Bool × List Char) :=
  let cs1 := cs.dropWhile isRegexSpace
  if (cs1.takeWhile Char.isDigit).isEmpty then none
  else
    match (cs1.dropWhile Char.isDigit).dropWhile isRegexSpace with
    | '|' :: cs4 => some (dropSpacesTrack cs4 false)
    | _ => none

/-- `re.sub(r'^\s*\d+\s*\|\s*', '', code, flags=re.MULTILINE)`: scan left
to right, attempting the anchored pattern only at line starts, resuming
after each (necessarily non-empty) match.  The fuel equals the scanned
length and every step consumes at least one character, so it never runs
out mid-scan. -/
def decorSubF : Nat → List Char → Bool → List Char
  | 0, cs, _ => cs
  | fuel + 1, cs, atStart =>
      match cs with
      | [] => []
      | c :: rest =>
          if atStart then
            match matchDecor (c :: rest) with
            | some (nl, restAfter) => decorSubF fuel restAfter nl
            | none => c :: decorSubF fuel rest (c = '\n')
          else c :: decorSubF fuel rest (c = '\n')

/-- The decoration-stripping substitution of `normalize_code`. -/
def decorSub (cs : List Char) : List Char := decorSubF cs.length cs true

/-- `normalize_code`: strip line-number decorations, split into lines,
right-trim each line, drop blank lines at both ends. -/
def normalizeCode (code : List Char) : List (List Char) :=
  let lines := (splitLinesL (decorSub code)).map rstripL
  let l1 := lines.dropWhile isBlankL
  (l1.reverse.dropWhile isBlankL).reverse

/-- A `find_code_location` result (`LocationMatch`). -/
structure LocMatch where
  file : String
  startLine : Nat
  endLine : Nat
  confidence : ℚ
  isHintFile : Bool
deriving DecidableEq, Repr

/-- The search order of `find_code_location`: the hint file first when it
exists, then every other (already filtered and deduplicated) repository
file in traversal order.  `repo` is the filesystem traversal: one entry
per eligible file, path and `readlines` content (lines without their
trailing newline — `rstrip` removes it anyway). -/
def locateSearchOrder (repo : List (String × List (List Char))) (hint : Option String) :
    List (String × List (List Char)) :=
  match hint with
  | none => repo
  | some h =>
      match repo.find? (fun p => p.1 = h) with
      | some f => f :: repo.filter (fun p => ¬ (p.1 = h))
      | none => repo

/-- The candidate list of `find_code_location`: for every file in search
order and every sliding window of the snippet's height, the window is
right-trimmed, its similarity to the normalized snippet computed (both
joined with newlines — `calculate_similarity`), and kept iff `≥ 0.80`,
tagged with whether it came from the hint file.  `sim` is the
`difflib.SequenceMatcher(None, a, b).ratio()` oracle. -/
def locateCandidates (sim : List Char → List Char → ℚ)
    (repo : List (String × List (List Char))) (hint : Option String)
    (snippetLines : List (List Char)) : List LocMatch :=
  (locateSearchOrder repo hint).flatMap (fun p =>
    if p.2.isEmpty then []
    else
      (List.range (p.2.length + 1 - snippetLines.length)).filterMap (fun i =>
        let window := ((p.2.drop i).take snippetLines.length).map rstripL
        let similarity := sim (joinLinesL snippetLines) (joinLinesL window)
        if mkRat 4 5 ≤ similarity then
          some ⟨p.1, i + 1, i + snippetLines.length, similarity,
            decide (hint = some p.1)⟩
        else none))

/-- The sort key of `candidates.sort(key=lambda x: (x['is_hint_file'],
x['confidence']), reverse=True)`. -/
def candKey (c : LocMatch) : Bool ×ₗ ℚ := toLex (c.isHintFile, c.confidence)

/-- `find_code_location`: normalize the fragment, reject it under two
lines, collect candidates, and return the head of the stable descending
sort (hint-file membership first, then confidence), or `none`. -/
def findCodeLocation (sim : List Char → List Char → ℚ)
    (repo : List (String × List (List Char))) (hint : Option String)
    (codeSnippet : List Char) : Option LocMatch :=
  let snippetLines := normalizeCode codeSnippet
  if snippetLines.length < 2 then none
  else
    match locateCandidates sim repo hint snippetLines with
    | [] => none
    | c :: cs => (sortDescByKey candKey (c :: cs)).head?

/-- The citation gate of `enhance_response`
(`location['confidence'] >= 0.85`): only matches at or above `0.85` are
used to annotate output with a file/line citation. -/
def citationAccepts (loc : LocMatch) : Bool := decide (mkRat 85 100 ≤ loc.confidence)

theorem insertDescByKey_ne_nil {α K : Type} [LinearOrder K] (key : α → K) (x : α)
    (l : List α) : insertDescByKey key x l ≠ [] := by
  cases l with
  | nil => simp [insertDescByKey]
  | cons y ys =>
      unfold insertDescByKey
      split <;> simp

theorem sortDescByKey_head_max {α K : Type} [LinearOrder K] (key : α → K) :
    ∀ (l : List α) (x : α) (rest : List α), sortDescByKey key l = x :: rest →
      x ∈ l ∧ ∀ y ∈ l, key y ≤ key x := by
  intro l
  induction l with
  | nil => intro x rest h; simp [sortDescByKey] at h
  | cons a as ih =>
      intro x rest h
      unfold sortDescByKey at h
      cases hsort : sortDescByKey key as with
      | nil =>
          rw [hsort] at h
          simp only [insertDescByKey] at h
          cases h
          have has : as = [] := by
            cases as with
            | nil => rfl
            | cons b bs =>
                exfalso
                exact insertDescByKey_ne_nil key b (sortDescByKey key bs)
                  (by simpa [sortDescByKey] using hsort)
          subst has
          exact ⟨by simp, by intro y hy; simp at hy; rw [hy]⟩
      | cons b bs =>
          rw [hsort] at h
          obtain ⟨hb, hmax⟩ := ih b bs hsort
          unfold insertDescByKey at h
          split at h
          · rename_i hle
            cases h
            refine ⟨by simp, ?_⟩
            intro y hy
            rcases List.mem_cons.mp hy with hy | hy
            · rw [hy]
            · exact le_trans (hmax y hy) hle
          · rename_i hnle
            cases h
            refine ⟨List.mem_cons_of_mem a hb, ?_⟩
            intro y hy
            rcases List.mem_cons.mp hy with hy | hy
            · rw [hy]
              exact le_of_not_le hnle
            · exact hmax y hy

theorem locateCandidates_mem_elim (sim : List Char → List Char → ℚ)
    (repo : List (String × List (List Char))) (hint : Option String)
    (snip : List (List Char)) (c : LocMatch)
    (hc : c ∈ locateCandidates sim repo hint snip) :
    ∃ p ∈ locateSearchOrder repo hint, p.2.isEmpty = false ∧
      ∃ i, i < p.2.length + 1 - snip.length ∧
        mkRat 4 5 ≤ sim (joinLinesL snip) (joinLinesL (((p.2.drop i).take snip.length).map rstripL)) ∧
        c = ⟨p.1, i + 1, i + snip.length,
          sim (joinLinesL snip) (joinLinesL (((p.2.drop i).take snip.length).map rstripL)),
          decide (hint = some p.1)⟩ := by
  unfold locateCandidates at hc
  obtain ⟨p, hp, hcp⟩ := List.mem_flatMap.mp hc
  refine ⟨p, hp, ?_⟩
  revert hcp
  split
  · intro hcp
    simp at hcp
  · rename_i hne
    intro hcp
    obtain ⟨i, hi, hmatch⟩ := List.mem_filterMap.mp hcp
    have hir := List.mem_range.mp hi
    refine ⟨by simpa using hne, i, hir, ?_⟩
    revert hmatch
    dsimp only
    split
    · rename_i hsim
      intro hmatch
      exact ⟨hsim, (Option.some.inj hmatch).symm⟩
    · intro hmatch
      exact absurd hmatch (by simp)

theorem locateCandidates_mem_intro (sim : List Char → List Char → ℚ)
    (repo : List (String × List (List Char))) (hint : Option String)
    (snip : List (List Char)) (p : String × List (List Char)) (i : Nat)
    (hp : p ∈ locateSearchOrder repo hint) (hne : p.2.isEmpty = false)
    (hi : i < p.2.length + 1 - snip.length)
    (hsim : mkRat 4 5 ≤
      sim (joinLinesL snip) (joinLinesL (((p.2.drop i).take snip.length).map rstripL))) :
    (⟨p.1, i + 1, i + snip.length,
      sim (joinLinesL snip) (joinLinesL (((p.2.drop i).take snip.length).map rstripL)),
      decide (hint = some p.1)⟩ : LocMatch) ∈ locateCandidates sim repo hint snip := by
  unfold locateCandidates
  rw [List.mem_flatMap]
  refine ⟨p, hp, ?_⟩
  rw [if_neg (by simp [hne])]
  rw [List.mem_filterMap]
  refine ⟨i, List.mem_range.mpr hi, ?_⟩
  dsimp only
  rw [if_pos hsim]

theorem sortDescByKey_ne_nil {α K : Type} [LinearOrder K] (key : α → K) (c : α)
    (cs : List α) : sortDescByKey key (c :: cs) ≠ [] := by
  unfold sortDescByKey
  exact insertDescByKey_ne_nil key c (sortDescByKey key cs)

/-- **C8** (confirmed).  When the best sliding-window similarity for a
fragment (of at least two normalized lines) is exactly `0.80` — some
window reaches `0.80` and none exceeds it — `find_code_location` *returns*
a match (the candidate threshold `>= 0.80` is inclusive) whose confidence
is exactly `0.80`, and the citation gate of `enhance_response`, which
requires confidence `>= 0.85`, *excludes* it. -/
theorem C8_threshold_boundary (sim : List Char → List Char → ℚ)
    (repo : List (String × List (List Char))) (hint : Option String)
    (frag : List Char)
    (hlen : ¬ (normalizeCode frag).length < 2)
    (hub : ∀ c ∈ locateCandidates sim repo hint (normalizeCode frag),
      c.confidence ≤ mkRat 4 5)
    (hne : locateCandidates sim repo hint (normalizeCode frag) ≠ []) :
    ∃ loc, findCodeLocation sim repo hint frag = some loc ∧
      loc.confidence = mkRat 4 5 ∧ citationAccepts loc = false := by
  unfold findCodeLocation
  rw [if_neg hlen]
  cases hcand : locateCandidates sim repo hint (normalizeCode frag) with
  | nil => exact absurd hcand hne
  | cons c cs =>
      cases hs : sortDescByKey candKey (c :: cs) with
      | nil => exact absurd hs (sortDescByKey_ne_nil candKey c cs)
      | cons x rest =>
          obtain ⟨hxmem, _⟩ := sortDescByKey_head_max candKey (c :: cs) x rest hs
          have hx : x ∈ locateCandidates sim repo hint (normalizeCode frag) := by
            rw [hcand]
            exact hxmem
          have hge : mkRat 4 5 ≤ x.confidence := by
            obtain ⟨p, _, _, i, _, hsim, hxeq⟩ :=
              locateCandidates_mem_elim sim repo hint (normalizeCode frag) x hx
            rw [hxeq]
            exact hsim
          have hconf : x.confidence = mkRat 4 5 :=
            le_antisymm (hub x hx) hge
          refine ⟨x, ?_, hconf, ?_⟩
          · have hred : (match c :: cs with
                | [] => (none : Option LocMatch)
                | c :: cs => (sortDescByKey candKey (c :: cs)).head?) =
                (sortDescByKey candKey (c :: cs)).head? := rfl
            rw [hred, hs]
            rfl
          · unfold citationAccepts
            rw [hconf]
            decide

/-- A constant similarity oracle scoring every comparison exactly `0.80`. -/
def simConst : List Char → List Char → ℚ := fun _ _ => mkRat 4 5

/-- A one-file repository (`f.py` with lines `a`, `b`). -/
def repoC8 : List (String × List (List Char)) := [("f.py", [['a'], ['b']])]

/-- **C8 witness.**  With every window scoring exactly `0.80`, locating the
two-line fragment `a\nb` returns a match of confidence `0.80` that the
`>= 0.85` citation gate rejects. -/
theorem C8_witness :
    ∃ loc, findCodeLocation simConst repoC8 none ('a' :: '\n' :: ['b']) = some loc ∧
      loc.confidence = mkRat 4 5 ∧ citationAccepts loc = false :=
  C8_threshold_boundary simConst repoC8 none ('a' :: '\n' :: ['b'])
    (by decide) (by decide) (by decide)

theorem splitLinesL_ne_nil : ∀ cs : List Char, splitLinesL cs ≠ [] := by
  intro cs
  induction cs with
  | nil => simp [splitLinesL]
  | cons c rest ih =>
      unfold splitLinesL
      cases hs : splitLinesL rest with
      | nil => exact absurd hs ih
      | cons h t =>
          by_cases hc : c = '\n' <;> simp [hc]

theorem splitLinesL_newline_cons (cs : List Char) :
    splitLinesL ('\n' :: cs) = [] :: splitLinesL cs := by
  cases hs : splitLinesL cs with
  | nil => exact absurd hs (splitLinesL_ne_nil cs)
  | cons h t =>
      unfold splitLinesL
      rw [hs]
      simp

theorem splitLinesL_char_cons (c : Char) (rest : List Char) (hc : ¬ c = '\n')
    (h : List Char) (t : List (List Char)) (hs : splitLinesL rest = h :: t) :
    splitLinesL (c :: rest) = (c :: h) :: t := by
  unfold splitLinesL
  rw [hs]
  simp [hc]

theorem splitLinesL_no_newline (l : List Char) (h : '\n' ∉ l) :
    splitLinesL l = [l] := by
  induction l with
  | nil => rfl
  | cons c rest ih =>
      have hc : ¬ (c = '\n') := by
        intro hc
        exact h (hc ▸ List.mem_cons_self c rest)
      have hrest : '\n' ∉ rest := fun hm => h (List.mem_cons_of_mem c hm)
      exact splitLinesL_char_cons c rest hc rest [] (ih hrest)

theorem splitLinesL_append_newline (l cs : List Char) (h : '\n' ∉ l) :
    splitLinesL (l ++ '\n' :: cs) = l :: splitLinesL cs := by
  induction l with
  | nil =>
      simp only [List.nil_append]
      exact splitLinesL_newline_cons cs
  | cons c rest ih =>
      have hc : ¬ (c = '\n') := by
        intro hc
        exact h (hc ▸ List.mem_cons_self c rest)
      have hrest : '\n' ∉ rest := fun hm => h (List.mem_cons_of_mem c hm)
      have hih := ih hrest
      simp only [List.cons_append]
      cases hs : splitLinesL cs with
      | nil => exact absurd hs (splitLinesL_ne_nil cs)
      | cons m ms =>
          rw [hs] at hih
          exact splitLinesL_char_cons c (rest ++ '\n' :: cs) hc (rest) (m :: ms) hih

theorem splitLinesL_joinLinesL (ls : List (List Char)) (hne : ls ≠ [])
    (h : ∀ l ∈ ls, '\n' ∉ l) : splitLinesL (joinLinesL ls) = ls := by
  induction ls with
  | nil => exact absurd rfl hne
  | cons l rest ih =>
      cases rest with
      | nil =>
          unfold joinLinesL
          exact splitLinesL_no_newline l (h l (List.mem_cons_self l []))
      | cons m rest' =>
          have hjoin : joinLinesL (l :: m :: rest') =
              l ++ '\n' :: joinLinesL (m :: rest') := rfl
          rw [hjoin, splitLinesL_append_newline l _ (h l (List.mem_cons_self l _))]
          rw [ih (by simp) (fun x hx => h x (List.mem_cons_of_mem l hx))]

theorem isBlankL_of_rstripL (l : List Char) (h : isBlankL (rstripL l) = true) :
    isBlankL l = true := by
  unfold isBlankL at h ⊢
  unfold rstripL at h
  rw [List.all_reverse] at h
  rw [← List.all_reverse]
  rw [← List.takeWhile_append_dropWhile (p := isRegexSpace) (l := l.reverse)]
  rw [List.all_append]
  simp only [Bool.and_eq_true]
  refine ⟨?_, h⟩
  rw [List.all_eq_true]
  intro x hx
  exact List.mem_takeWhile_imp hx

theorem normalizeCode_verbatim (fragLines : List (List Char))
    (hne : fragLines ≠ [])
    (hnl : ∀ l ∈ fragLines, '\n' ∉ l)
    (hdecor : decorSub (joinLinesL fragLines) = joinLinesL fragLines)
    (hhead : isBlankL (fragLines.headD []) = false)
    (hlast : isBlankL (fragLines.getLastD []) = false) :
    normalizeCode (joinLinesL fragLines) = fragLines.map rstripL := by
  unfold normalizeCode
  rw [hdecor, splitLinesL_joinLinesL fragLines hne hnl]
  have hdrop1 : (fragLines.map rstripL).dropWhile isBlankL = fragLines.map rstripL := by
    cases hfl : fragLines with
    | nil => exact absurd hfl hne
    | cons h0 t0 =>
        have hh : isBlankL (rstripL h0) = false := by
          cases hb : isBlankL (rstripL h0) with
          | false => rfl
          | true =>
              exfalso
              have hb0 := isBlankL_of_rstripL h0 hb
              rw [hfl] at hhead
              simp only [List.headD_cons] at hhead
              rw [hb0] at hhead
              cases hhead
        rw [List.map_cons, List.dropWhile_cons, if_neg (by rw [hh]; simp)]
  simp only [hdrop1]
  cases hrev : fragLines.reverse with
  | nil =>
      exfalso
      have hfn : fragLines = [] := by
        have := congrArg List.reverse hrev
        simpa using this
      exact hne hfn
  | cons z zs =>
      have hzlast : fragLines.getLastD [] = z := by
        have h1 : fragLines.reverse.head? = some z := by rw [hrev]; rfl
        rw [List.head?_reverse] at h1
        rw [List.getLastD_eq_getLast?, h1]
        rfl
      have hz : isBlankL (rstripL z) = false := by
        cases hb : isBlankL (rstripL z) with
        | false => rfl
        | true =>
            exfalso
            have hb0 := isBlankL_of_rstripL z hb
            rw [hzlast] at hlast
            rw [hb0] at hlast
            cases hlast
      have hmaprev : (fragLines.map rstripL).reverse = rstripL z :: zs.map rstripL := by
        rw [← List.map_reverse, hrev, List.map_cons]
      rw [hmaprev, List.dropWhile_cons, if_neg (by rw [hz]; simp)]
      rw [← List.map_cons, ← hrev, List.map_reverse, List.reverse_reverse]

/-- **C9** (corrected).  The claim as stated fails (see the counterexample:
a verbatim fragment whose copied range starts with a blank line is
returned with a *shifted* start line, because `normalize_code` drops blank
edge lines before matching).  The amended statement, proved here: a
fragment of `L ≥ 2` lines copied verbatim from lines `k+1 … k+L` of a
repository file — provided no hint is given, the copied range's first and
last lines are not blank, no part of the fragment matches the
line-number-decoration pattern, and the copied block is the unique window
of perfect similarity (with the similarity measure reflexive and bounded
by `1`, as `difflib`'s ratio is) — is located at exactly that file and
line range with confidence `1.0`. -/
theorem C9_verbatim_fragment_location (sim : List Char → List Char → ℚ)
    (repo : List (String × List (List Char)))
    (fpath : String) (flines : List (List Char)) (k L : Nat)
    (hsim1 : ∀ a b, sim a b ≤ 1)
    (hrefl : ∀ a, sim a a = 1)
    (hmem : (fpath, flines) ∈ repo)
    (hL : 2 ≤ L) (hkL : k + L ≤ flines.length)
    (hnl : ∀ l ∈ (flines.drop k).take L, '\n' ∉ l)
    (hdecor : decorSub (joinLinesL ((flines.drop k).take L)) =
      joinLinesL ((flines.drop k).take L))
    (hhead : isBlankL (((flines.drop k).take L).headD []) = false)
    (hlast : isBlankL (((flines.drop k).take L).getLastD []) = false)
    (huniq : ∀ p ∈ repo, ∀ i, i < p.2.length + 1 - L →
      sim (joinLinesL (((flines.drop k).take L).map rstripL))
          (joinLinesL (((p.2.drop i).take L).map rstripL)) = 1 →
      p = (fpath, flines) ∧ i = k) :
    findCodeLocation sim repo none (joinLinesL ((flines.drop k).take L)) =
      some ⟨fpath, k + 1, k + L, 1, false⟩ := by
  have hfrLen : ((flines.drop k).take L).length = L := by
    rw [List.length_take, List.length_drop]
    omega
  have hfrne : (flines.drop k).take L ≠ [] := by
    intro h
    have hl0 := congrArg List.length h
    rw [hfrLen] at hl0
    simp at hl0
    omega
  have hnorm : normalizeCode (joinLinesL ((flines.drop k).take L)) =
      ((flines.drop k).take L).map rstripL :=
    normalizeCode_verbatim _ hfrne hnl hdecor hhead hlast
  have hsnipLen : (normalizeCode (joinLinesL ((flines.drop k).take L))).length = L := by
    rw [hnorm, List.length_map, hfrLen]
  have hflNe : (flines : List (List Char)).isEmpty = false := by
    cases flines with
    | nil => simp at hkL; omega
    | cons a as => rfl
  have hwinK : ((((fpath, flines).2.drop k).take
      (normalizeCode (joinLinesL ((flines.drop k).take L))).length).map rstripL) =
      normalizeCode (joinLinesL ((flines.drop k).take L)) := by
    rw [hsnipLen, hnorm]
  have hkBound : k < (fpath, flines).2.length + 1 -
      (normalizeCode (joinLinesL ((flines.drop k).take L))).length := by
    rw [hsnipLen]
    simp only
    omega
  have htgtConf :
      sim (joinLinesL (normalizeCode (joinLinesL ((flines.drop k).take L))))
        (joinLinesL ((((fpath, flines).2.drop k).take
          (normalizeCode (joinLinesL ((flines.drop k).take L))).length).map rstripL)) = 1 := by
    rw [hwinK, hrefl]
  have hsimK : mkRat 4 5 ≤
      sim (joinLinesL (normalizeCode (joinLinesL ((flines.drop k).take L))))
        (joinLinesL ((((fpath, flines).2.drop k).take
          (normalizeCode (joinLinesL ((flines.drop k).take L))).length).map rstripL)) := by
    rw [htgtConf]
    decide
  have htgtMem := locateCandidates_mem_intro sim repo none
    (normalizeCode (joinLinesL ((flines.drop k).take L))) (fpath, flines) k
    hmem hflNe hkBound hsimK
  unfold findCodeLocation
  rw [if_neg (by rw [hsnipLen]; omega)]
  cases hcand : locateCandidates sim repo none
      (normalizeCode (joinLinesL ((flines.drop k).take L))) with
  | nil =>
      rw [hcand] at htgtMem
      simp at htgtMem
  | cons c cs =>
      cases hs : sortDescByKey candKey (c :: cs) with
      | nil => exact absurd hs (sortDescByKey_ne_nil candKey c cs)
      | cons x rest =>
          obtain ⟨hxmem, hmax⟩ := sortDescByKey_head_max candKey (c :: cs) x rest hs
          have hx : x ∈ locateCandidates sim repo none
              (normalizeCode (joinLinesL ((flines.drop k).take L))) := by
            rw [hcand]
            exact hxmem
          obtain ⟨p, hp, hpne, i, hib, hsimb, hxeq⟩ :=
            locateCandidates_mem_elim sim repo none
              (normalizeCode (joinLinesL ((flines.drop k).take L))) x hx
          rw [hcand] at htgtMem
          have hkey := hmax _ htgtMem
          rw [hxeq] at hkey
          simp only [candKey] at hkey
          have hdtgt : (decide ((none : Option String) = some (fpath, flines).1)) =
              false := by simp
          have hdp : (decide ((none : Option String) = some p.1)) = false := by simp
          simp only [hdtgt, hdp] at hkey
          rw [Prod.Lex.le_iff] at hkey
          have hconf1 : (1 : ℚ) ≤
              sim (joinLinesL (normalizeCode (joinLinesL ((flines.drop k).take L))))
                (joinLinesL (((p.2.drop i).take
                  (normalizeCode (joinLinesL ((flines.drop k).take L))).length).map
                    rstripL)) := by
            rcases hkey with hkey | hkey
            · exact absurd hkey (by simp)
            · have h2 := hkey.2
              simp only at h2
              rw [htgtConf] at h2
              exact h2
          have hsimx :
              sim (joinLinesL (normalizeCode (joinLinesL ((flines.drop k).take L))))
                (joinLinesL (((p.2.drop i).take
                  (normalizeCode (joinLinesL ((flines.drop k).take L))).length).map
                    rstripL)) = 1 :=
            le_antisymm (hsim1 _ _) hconf1
          have hup := huniq p hp i (by rw [hsnipLen] at hib; exact hib)
            (by rw [hsnipLen] at hsimx; rw [hnorm] at hsimx; exact hsimx)
          obtain ⟨hpe, hie⟩ := hup
          subst hie
          subst hpe
          have hred : (match c :: cs with
              | [] => (none : Option LocMatch)
              | c :: cs => (sortDescByKey candKey (c :: cs)).head?) =
              (sortDescByKey candKey (c :: cs)).head? := rfl
          rw [hred, hs]
          simp only [List.head?_cons]
          rw [hxeq]
          simp only [Option.some.injEq, LocMatch.mk.injEq]
          refine ⟨trivial, trivial, ?_, ?_, by simp⟩
          · rw [hsnipLen]
          · rw [hsnipLen, hnorm]
            exact hrefl _

/-- The exact-match similarity oracle: `1` on identical texts, `0`
otherwise (a valid similarity: reflexive at `1` and bounded by `1`). -/
def exactSim : List Char → List Char → ℚ := fun a b => if a = b then 1 else 0

/-- A one-file repository `f.py` whose lines are `""`, `"ab"`, `"cd"`. -/
def repoC9 : List (String × List (List Char)) :=
  [("f.py", [[], ['a', 'b'], ['c', 'd']])]

/-- **C9 counterexample.**  The fragment `"\nab\ncd"` is lines 1–3 of
`f.py` copied verbatim (three lines, original whitespace), but `locate`
returns lines **2–3**, not the copied range 1–3: `normalize_code` drops
the leading blank line before matching, so the claim "returns that exact
file and line range" is false at this input even though the confidence is
`1.0`. -/
theorem C9_counterexample :
    findCodeLocation exactSim repoC9 none ('\n' :: 'a' :: 'b' :: '\n' :: 'c' :: ['d']) =
      some ⟨"f.py", 2, 3, 1, false⟩ ∧
      some (⟨"f.py", 2, 3, 1, false⟩ : LocMatch) ≠ some ⟨"f.py", 1, 3, 1, false⟩ := by
  decide

/-- A one-file repository `f.py` whose lines are `"ab"`, `"cd"`. -/
def repoC9w : List (String × List (List Char)) :=
  [("f.py", [['a', 'b'], ['c', 'd']])]

/-- **C9 witness.**  The amended statement at a concrete input: the
two-line fragment copied verbatim from lines 1–2 of `f.py` (non-blank edge
lines, no decoration, unique perfect match) is located at exactly
`f.py:1-2` with confidence `1.0`. -/
theorem C9_witness :
    findCodeLocation exactSim repoC9w none
        (joinLinesL (((repoC9w.headD ("", [])).2.drop 0).take 2)) =
      some ⟨"f.py", 1, 2, 1, false⟩ :=
  C9_verbatim_fragment_location exactSim repoC9w "f.py" [['a', 'b'], ['c', 'd']] 0 2
    (by
      intro a b
      unfold exactSim
      split <;> decide)
    (by
      intro a
      simp [exactSim])
    (by decide) (by decide) (by decide) (by decide) (by decide) (by decide)
    (by decide) (by decide)
